import Mathlib

/-!
Verification of the Sunshine display manager (`update_sunshine_display.py`,
`auto_update_sunshine_display.py`) against its specification.

Python strings are modelled as `List Char`.  The configuration-file editing
code uses the regular expression `^output_name\s*=\s*.*$` in MULTILINE mode;
it is modelled by a character-level scanner that is faithful to Python `re`
semantics: `^` matches at the start of the text and after each newline, `\s`
matches whitespace including the newline (so a match may span lines), `.`
matches anything except a newline, `$` matches at the end of the text and
before a newline, substitution replaces every non-overlapping leftmost match.
Recursive scanners take a fuel argument (structurally decreasing) so that all
definitions compute by kernel reduction; `fuel = length of the input` always
suffices, and wrapper definitions fix the fuel at that value.
-/

namespace Sunshine

/-- Python strings, modelled as lists of characters. -/
abbrev Str := List Char

/-- Whitespace as matched by Python's `\s` on `str` (the ASCII whitespace
characters plus the Unicode whitespace code points). -/
def isPySpace (c : Char) : Bool :=
  let n := c.toNat
  -- tab..carriage-return, space, file/group/record/unit separators, next line,
  -- no-break space, ogham mark, en quad..hair space, line/paragraph separators,
  -- narrow no-break space, medium mathematical space, ideographic space
  decide ((9 ≤ n ∧ n ≤ 13) ∨ n = 32 ∨ (28 ≤ n ∧ n ≤ 31) ∨ n = 133 ∨ n = 160 ∨
    n = 5760 ∨ (8192 ≤ n ∧ n ≤ 8202) ∨ n = 8232 ∨ n = 8233 ∨ n = 8239 ∨
    n = 8287 ∨ n = 12288)

/-- Greedy `\s*`: drop the maximal run of whitespace. -/
def dropWS (cs : Str) : Str := cs.dropWhile isPySpace

/-- Greedy `.*`: drop the maximal run of non-newline characters. -/
def dropNonNL (cs : Str) : Str := cs.dropWhile (fun c => decide (c ≠ '\n'))

/-- Greedy `\S+` capture: the maximal run of non-whitespace characters. -/
def takeNonWS (cs : Str) : Str := cs.takeWhile (fun c => !isPySpace c)

/-- The literal key of the pattern `^output_name\s*=\s*.*$`. -/
def key : Str := "output_name".toList

/-- Try the pattern `output_name\s*=\s*.*$` at the current position (which the
scanners only call at a line start, where `^` holds).  Greedy matching of this
pattern never backtracks: after `=` the run `\s*` is maximal, then `.*` is
maximal and `$` always holds there (the run stops at a newline or at the end).
Returns the text that follows the match. -/
def matchAt (cs : Str) : Option Str :=
  if key.isPrefixOf cs then
    match dropWS (cs.drop key.length) with
    | [] => none
    | c :: rest => if c = '=' then some (dropNonNL (dropWS rest)) else none
  else none

/-- Split off the current line: the characters up to and including the first
newline (or the whole text when it has no newline), and the rest. -/
def copyToNL : Str → Str × Str
  | [] => ([], [])
  | c :: rest =>
    if c = '\n' then ([c], rest)
    else
      let p := copyToNL rest
      (c :: p.1, p.2)

/-- `re.sub` of the pattern with replacement `r`, fueled.  At each line start,
either the pattern matches (the match is replaced by `r` and scanning resumes
after the match) or the whole line is copied. -/
def subScanF (r : Str) : Nat → Str → Str
  | _, [] => []
  | 0, _ :: _ => []
  | fuel + 1, c :: rest =>
    match matchAt (c :: rest) with
    | some t =>
      r ++ (match t with
        | [] => []
        | c2 :: t2 => c2 :: subScanF r fuel t2)
    | none =>
      let p := copyToNL (c :: rest)
      p.1 ++ subScanF r fuel p.2

/-- `re.sub` of `^output_name\s*=\s*.*$` (MULTILINE) with replacement `r`. -/
def subScan (r cs : Str) : Str := subScanF r cs.length cs

/-- `re.search` of the pattern returns a match somewhere in the text, fueled. -/
def hasMatchF : Nat → Str → Bool
  | _, [] => false
  | 0, _ :: _ => false
  | fuel + 1, c :: rest =>
    match matchAt (c :: rest) with
    | some _ => true
    | none => hasMatchF fuel (copyToNL (c :: rest)).2

/-- `re.search` of `^output_name\s*=\s*.*$` (MULTILINE) succeeds. -/
def hasMatch (cs : Str) : Bool := hasMatchF cs.length cs

/-- The replacement line `output_name = <id>` that `update_sunshine_config`
writes (Python: `f"output_name = {display_id}"`). -/
def newConfigLine (display_id : Str) : Str := "output_name = ".toList ++ display_id

/-- The content-level configuration update with the replacement taken
literally.  `update_sunshine_config` (defined below, after the replacement
template machinery) reduces to this whenever the id contains no backslash, in
which case `re.sub`'s template processing leaves `output_name = <id>`
unchanged.  If the pattern matches somewhere, every match is replaced in
place; otherwise the new line is appended, after first terminating a
non-newline-terminated content. -/
def updateContentLit (display_id : Str) (content : Str) : Str :=
  let line := newConfigLine display_id
  if hasMatch content then
    subScan line content
  else
    let content2 :=
      if content ≠ [] ∧ content.getLast? ≠ some '\n' then content ++ ['\n'] else content
    content2 ++ line ++ ['\n']

/-- Try the read pattern `output_name\s*=\s*(\S+)` at a line start; returns the
captured group.  The group needs at least one non-whitespace character. -/
def readMatchAt (cs : Str) : Option Str :=
  if key.isPrefixOf cs then
    match dropWS (cs.drop key.length) with
    | [] => none
    | c :: rest =>
      if c = '=' then
        match takeNonWS (dropWS rest) with
        | [] => none
        | v => some v
      else none
  else none

/-- `re.search` of `^output_name\s*=\s*(\S+)` (MULTILINE), fueled: the captured
group of the leftmost match. -/
def readScanF : Nat → Str → Option Str
  | _, [] => none
  | 0, _ :: _ => none
  | fuel + 1, c :: rest =>
    match readMatchAt (c :: rest) with
    | some v => some v
    | none => readScanF fuel (copyToNL (c :: rest)).2

/-- The stored output id of a configuration file content: the captured group of
the leftmost match of `^output_name\s*=\s*(\S+)`. -/
def scanOutputName (cs : Str) : Option Str := readScanF cs.length cs

/-- `get_current_sunshine_display` of `update_sunshine_display.py` (lines
164-181): `none` when the file is missing, otherwise the scan of its content. -/
def get_current_sunshine_display (conf : Option Str) : Option Str :=
  match conf with
  | none => none
  | some content => scanOutputName content

/-- Split a text into its lines at each newline (like Python
`content.split("\n")`): `"a\nb\n"` has lines `["a", "b", ""]`. -/
def splitNL : Str → List Str
  | [] => [[]]
  | c :: rest =>
    if c = '\n' then [] :: splitNL rest
    else
      match splitNL rest with
      | [] => [[c]]
      | l :: ls => (c :: l) :: ls

/-- A single (newline-free) line matches `^output_name\s*=\s*.*$` as a line. -/
def lineMatchesB (l : Str) : Bool := (matchAt l).isSome

/-- A line begins with the literal `output_name`. -/
def keyLineB (l : Str) : Bool := key.isPrefixOf l

/-- A `output_name`-initial line is safe when, within the line, an `=` follows
the whitespace run after `output_name` and a non-whitespace character follows
the `=`'s whitespace run — so a match starting at this line stays inside it. -/
def safeLineB (l : Str) : Bool :=
  match dropWS (l.drop key.length) with
  | [] => false
  | c :: rest => decide (c = '=') && !(dropWS rest).isEmpty

/-! ### Display records and the matcher -/

/-- One display record as `get_displays` builds it (`update_sunshine_display.py`
lines 71-78). -/
structure Display where
  name : Str
  id : Str
  resolution : Str
  pixels : Str
  is_main : Bool
  is_online : Bool
deriving DecidableEq

/-- Python `str.lower` (modelled on the ASCII letters). -/
def lowerStr (s : Str) : Str := s.map Char.toLower

/-- Python's substring test `p in s`. -/
def isSubstrB : Str → Str → Bool
  | p, [] => p.isEmpty
  | p, c :: t => p.isPrefixOf (c :: t) || isSubstrB p t

/-- The first `for` loop of `find_display_by_name`: first record whose lowered
name equals the lowered query. -/
def findExactIn (nameLower : Str) : List Display → Option Display
  | [] => none
  | d :: ds => if lowerStr d.name = nameLower then some d else findExactIn nameLower ds

/-- The second `for` loop of `find_display_by_name`: first record whose lowered
name contains the lowered query as a substring. -/
def findSubIn (nameLower : Str) : List Display → Option Display
  | [] => none
  | d :: ds => if isSubstrB nameLower (lowerStr d.name) then some d else findSubIn nameLower ds

/-- `find_display_by_name` of `update_sunshine_display.py` (lines 106-121),
with the enumerated records passed in for the source's `get_displays()` call:
exact case-insensitive match first, then substring match, else `none`. -/
def find_display_by_name (display_name : Str) (displays : List Display) : Option Display :=
  let nameLower := lowerStr display_name
  match findExactIn nameLower displays with
  | some d => some d
  | none => findSubIn nameLower displays

/-! ### Identifier normalization (`get_displays`, lines 62-69)

`int(display_id_str, 16)` is modelled by `pyIntHex`.  CPython first transforms
the string (`_PyUnicode_TransformDecimalAndSpaceToASCII`): characters below
127 pass through, other whitespace becomes a space, Unicode decimal digits
become their ASCII digit, and anything else raises `ValueError`.  The ASCII
parse then strips `\t\n\v\f\r ` at both ends and accepts an optional sign, an
optional `0x`/`0X` base marker (an underscore may follow it), then hexadecimal
digits with single underscores allowed between digits. -/

/-- The C-locale `Py_ISSPACE` characters stripped by the ASCII integer
parse. -/
def isAsciiSpace (c : Char) : Bool :=
  let n := c.toNat
  decide ((9 ≤ n ∧ n ≤ 13) ∨ n = 32)

/-- Strip leading ASCII whitespace. -/
def dropAS (cs : Str) : Str := cs.dropWhile isAsciiSpace

/-- First code points of the runs of ten consecutive Unicode decimal digits
(digit values 0-9 in order), as CPython's `unicodedata` tables hold them. -/
def decDigitBases : List Nat :=
  [48, 1632, 1776, 1984, 2406, 2534, 2662, 2790, 2918, 3046, 3174, 3302,
   3430, 3558, 3664, 3792, 3872, 4160, 4240, 6112, 6160, 6470, 6608, 6784,
   6800, 6992, 7088, 7232, 7248, 42528, 43216, 43264, 43472, 43504, 43600,
   44016, 65296, 66720, 68912, 69734, 69872, 69942, 70096, 70384, 70736,
   70864, 71248, 71360, 71472, 71904, 72016, 72784, 73040, 73120, 92768,
   92864, 93008, 120782, 120792, 120802, 120812, 120822, 123200, 123632,
   125264, 130032]

/-- `Py_UNICODE_TODECIMAL`: the decimal digit value of a character, for
characters with the Unicode decimal-digit property. -/
def pyDecimalVal (c : Char) : Option Nat :=
  decDigitBases.findSome? (fun b =>
    if b ≤ c.toNat ∧ c.toNat < b + 10 then some (c.toNat - b) else none)

/-- One character of `_PyUnicode_TransformDecimalAndSpaceToASCII`: characters
below 127 pass through, other whitespace becomes `' '`, Unicode decimal
digits become their ASCII digit, anything else fails (`ValueError`). -/
def pyTransformChar (c : Char) : Option Char :=
  if c.toNat < 127 then some c
  else if isPySpace c then some ' '
  else (pyDecimalVal c).map (fun d => Char.ofNat (48 + d))

/-- `_PyUnicode_TransformDecimalAndSpaceToASCII` over a string. -/
def pyTransform : Str → Option Str
  | [] => some []
  | c :: rest =>
    match pyTransformChar c with
    | none => none
    | some c2 => (pyTransform rest).map (fun t => c2 :: t)

/-- The value of one hexadecimal digit. -/
def hexVal (c : Char) : Option Nat :=
  let n := c.toNat
  if 48 ≤ n ∧ n ≤ 57 then some (n - 48)
  else if 97 ≤ n ∧ n ≤ 102 then some (n - 87)
  else if 65 ≤ n ∧ n ≤ 70 then some (n - 55)
  else none

/-- Digits after the first one: a single underscore may separate two digits,
never trail, and never repeat. -/
def hexDigitsGo (acc : Nat) : Str → Option Nat
  | [] => some acc
  | c :: rest =>
    if c = '_' then
      match rest with
      | [] => none
      | c2 :: rest2 =>
        match hexVal c2 with
        | some v => hexDigitsGo (16 * acc + v) rest2
        | none => none
    else
      match hexVal c with
      | some v => hexDigitsGo (16 * acc + v) rest
      | none => none

/-- At least one digit, not starting with an underscore. -/
def hexDigits1 : Str → Option Nat
  | [] => none
  | c :: rest =>
    if c = '_' then none
    else
      match hexVal c with
      | some v => hexDigitsGo v rest
      | none => none

/-- After the optional sign: an optional `0x`/`0X` marker, then digits. -/
def parseAfterSign (cs : Str) : Option Nat :=
  match cs with
  | c0 :: x :: rest =>
    if c0 = '0' ∧ (x = 'x' ∨ x = 'X') then
      match rest with
      | r1 :: rest2 => if r1 = '_' then hexDigits1 rest2 else hexDigits1 rest
      | [] => hexDigits1 rest
    else hexDigits1 cs
  | _ => hexDigits1 cs

/-- The ASCII parse of `int(s, 16)`, run on the transformed string. -/
def pyIntHexAscii (s : Str) : Option Int :=
  let t := dropAS ((dropAS s.reverse).reverse)
  match t with
  | [] => (parseAfterSign []).map (fun n => (n : Int))
  | c :: rest =>
    if c = '+' then (parseAfterSign rest).map (fun n => (n : Int))
    else if c = '-' then (parseAfterSign rest).map (fun n => -(n : Int))
    else (parseAfterSign (c :: rest)).map (fun n => (n : Int))

/-- Python `int(s, 16)` on a string: `none` models `ValueError`. -/
def pyIntHex (s : Str) : Option Int :=
  (pyTransform s).bind pyIntHexAscii

/-- The value of one decimal digit. -/
def decVal (c : Char) : Option Nat :=
  let n := c.toNat
  if 48 ≤ n ∧ n ≤ 57 then some (n - 48) else none

/-- Decimal digits after the first one, with single underscores allowed
between digits. -/
def decDigitsGo (acc : Nat) : Str → Option Nat
  | [] => some acc
  | c :: rest =>
    if c = '_' then
      match rest with
      | [] => none
      | c2 :: rest2 =>
        match decVal c2 with
        | some v => decDigitsGo (10 * acc + v) rest2
        | none => none
    else
      match decVal c with
      | some v => decDigitsGo (10 * acc + v) rest
      | none => none

/-- At least one decimal digit, not starting with an underscore. -/
def decDigits1 : Str → Option Nat
  | [] => none
  | c :: rest =>
    if c = '_' then none
    else
      match decVal c with
      | some v => decDigitsGo v rest
      | none => none

/-- The ASCII parse of `int(s)` (base 10, no base marker). -/
def pyIntDecAscii (s : Str) : Option Int :=
  let t := dropAS ((dropAS s.reverse).reverse)
  match t with
  | [] => none
  | c :: rest =>
    if c = '+' then (decDigits1 rest).map (fun n => (n : Int))
    else if c = '-' then (decDigits1 rest).map (fun n => -(n : Int))
    else (decDigits1 (c :: rest)).map (fun n => (n : Int))

/-- Python `int(s)` on a string: `none` models `ValueError`.  Used by the
replacement-template parser for `\g<name>` group names. -/
def pyIntDec (s : Str) : Option Int :=
  (pyTransform s).bind pyIntDecAscii

/-- The identifier normalization of `get_displays` (lines 62-69):
`str(int(display_id_str, 16))` when the parse succeeds, the raw string
otherwise. -/
def normalize_display_id (display_id_str : Str) : Str :=
  match pyIntHex display_id_str with
  | some n => (toString n).toList
  | none => display_id_str

/-! ### Service controller over an oracle of external-call outcomes

Each `subprocess.run` call site gets its outcome from an oracle field: either
a completed process (`Run`) or a raised exception (`PyExc`).  Exception
handling mirrors the `try`/`except` structure of the source exactly. -/

/-- A completed `subprocess.run`. -/
structure Run where
  returncode : Int
  stdout : Str
  stderr : Str
deriving DecidableEq

/-- The exceptions the source distinguishes. -/
inductive PyExc where
  | timeoutExpired
  | fileNotFound
  | otherExc (msg : Str)
deriving DecidableEq

/-- Python `str(e)` of a caught exception; may be empty for `otherExc []`. -/
def excMsg : PyExc → Str
  | .timeoutExpired => "Command timed out".toList
  | .fileNotFound => "No such file or directory".toList
  | .otherExc m => m

/-- The outcome of one external call. -/
abbrev CallResult := Except PyExc Run

instance {ε α : Type} [DecidableEq ε] [DecidableEq α] : DecidableEq (Except ε α) := fun x y =>
  match x, y with
  | .ok a, .ok b => if h : a = b then .isTrue (by rw [h]) else .isFalse (by simp [h])
  | .error a, .error b => if h : a = b then .isTrue (by rw [h]) else .isFalse (by simp [h])
  | .ok _, .error _ => .isFalse (by simp)
  | .error _, .ok _ => .isFalse (by simp)

/-! ### The `re.sub` replacement template

Python processes a string replacement through `re._parser.parse_template`:
backslash escapes become characters, `\g<...>` and `\1`-`\99` become group
references, octal escapes become characters, unknown ASCII-letter escapes
raise `re.error`, and other unknown escapes keep both characters.  The
pattern `^output_name\s*=\s*.*$` has no capturing groups, so every group
reference other than group 0 (the whole match) raises. -/

/-- One parsed element of the replacement template: a literal character, or a
reference to group 0 (the whole match). -/
inductive Tok where
  | lit : Char → Tok
  | group0 : Tok
deriving DecidableEq

/-- The template escapes `\a \b \f \n \r \t \v \\` (`re._parser.ESCAPES`,
as they act inside a replacement). -/
def escCode (c : Char) : Option Char :=
  if c = 'a' then some (Char.ofNat 7)
  else if c = 'b' then some (Char.ofNat 8)
  else if c = 'f' then some (Char.ofNat 12)
  else if c = 'n' then some '\n'
  else if c = 'r' then some (Char.ofNat 13)
  else if c = 't' then some '\t'
  else if c = 'v' then some (Char.ofNat 11)
  else if c = '\\' then some '\\'
  else none

/-- An octal digit. -/
def isOctD (c : Char) : Bool := decide (48 ≤ c.toNat ∧ c.toNat ≤ 55)

/-- A decimal digit. -/
def isDecD (c : Char) : Bool := decide (48 ≤ c.toNat ∧ c.toNat ≤ 57)

/-- An ASCII letter. -/
def isAsciiLetter (c : Char) : Bool :=
  decide ((65 ≤ c.toNat ∧ c.toNat ≤ 90) ∨ (97 ≤ c.toNat ∧ c.toNat ≤ 122))

/-- `str.isidentifier`, on the ASCII rules (a letter or underscore, then
letters, digits and underscores).  In `parse_template` it only selects which
exception a failed `\g<name>` raises, never whether one is raised: a name
that is an identifier can never parse as an integer. -/
def isIdentB : Str → Bool
  | [] => false
  | c :: rest =>
    (isAsciiLetter c || decide (c = '_')) &&
      rest.all (fun x => isAsciiLetter x || isDecD x || decide (x = '_'))

/-- `re._parser.parse_template` for a pattern with no capturing groups,
fueled (each step consumes at least one character). -/
def parseTemplateF : Nat → Str → Except PyExc (List Tok)
  | _, [] => Except.ok []
  | 0, _ :: _ => Except.error (PyExc.otherExc "out of fuel".toList)
  | fuel + 1, c :: rest =>
    if c = '\\' then
      match rest with
      | [] => Except.error (PyExc.otherExc "bad escape (end of pattern)".toList)
      | e :: rest2 =>
        if e = 'g' then
          match rest2 with
          | [] => Except.error (PyExc.otherExc "missing <".toList)
          | lt :: rest3 =>
            if lt = '<' then
              match rest3.dropWhile (fun x => decide (x ≠ '>')) with
              | [] => Except.error (PyExc.otherExc "missing >, unterminated name".toList)
              | _ :: rest4 =>
                match rest3.takeWhile (fun x => decide (x ≠ '>')) with
                | [] => Except.error (PyExc.otherExc "missing group name".toList)
                | name =>
                  match pyIntDec name with
                  | some i =>
                    if i = 0 then (parseTemplateF fuel rest4).map (fun ts => Tok.group0 :: ts)
                    else if 0 < i then Except.error (PyExc.otherExc "invalid group reference".toList)
                    else Except.error (PyExc.otherExc "bad character in group name".toList)
                  | none =>
                    if isIdentB name then Except.error (PyExc.otherExc "unknown group name".toList)
                    else Except.error (PyExc.otherExc "bad character in group name".toList)
            else Except.error (PyExc.otherExc "missing <".toList)
        else if e = '0' then
          match rest2 with
          | [] => (parseTemplateF fuel []).map (fun ts => Tok.lit (Char.ofNat 0) :: ts)
          | d2 :: rest3 =>
            if isOctD d2 then
              match rest3 with
              | [] =>
                (parseTemplateF fuel []).map (fun ts => Tok.lit (Char.ofNat (d2.toNat - 48)) :: ts)
              | d3 :: rest4 =>
                if isOctD d3 then
                  (parseTemplateF fuel rest4).map
                    (fun ts => Tok.lit (Char.ofNat (8 * (d2.toNat - 48) + (d3.toNat - 48))) :: ts)
                else
                  (parseTemplateF fuel rest3).map
                    (fun ts => Tok.lit (Char.ofNat (d2.toNat - 48)) :: ts)
            else (parseTemplateF fuel rest2).map (fun ts => Tok.lit (Char.ofNat 0) :: ts)
        else if isDecD e then
          match rest2 with
          | [] => Except.error (PyExc.otherExc "invalid group reference".toList)
          | d2 :: rest3 =>
            if isDecD d2 then
              match rest3 with
              | [] => Except.error (PyExc.otherExc "invalid group reference".toList)
              | d3 :: rest4 =>
                if isOctD e && isOctD d2 && isOctD d3 then
                  if 64 * (e.toNat - 48) + 8 * (d2.toNat - 48) + (d3.toNat - 48) ≤ 255 then
                    (parseTemplateF fuel rest4).map (fun ts =>
                      Tok.lit (Char.ofNat
                        (64 * (e.toNat - 48) + 8 * (d2.toNat - 48) + (d3.toNat - 48))) :: ts)
                  else
                    Except.error (PyExc.otherExc "octal escape value outside of range 0-0o377".toList)
                else Except.error (PyExc.otherExc "invalid group reference".toList)
            else Except.error (PyExc.otherExc "invalid group reference".toList)
        else
          match escCode e with
          | some ch => (parseTemplateF fuel rest2).map (fun ts => Tok.lit ch :: ts)
          | none =>
            if isAsciiLetter e then Except.error (PyExc.otherExc "bad escape".toList)
            else (parseTemplateF fuel rest2).map (fun ts => Tok.lit '\\' :: Tok.lit e :: ts)
    else (parseTemplateF fuel rest).map (fun ts => Tok.lit c :: ts)

/-- `re._parser.parse_template` of a replacement string, against the
pattern `^output_name\s*=\s*.*$` (no capturing groups). -/
def parse_template (s : Str) : Except PyExc (List Tok) := parseTemplateF s.length s

/-- Expand the parsed template at one match: `group0` stands for the matched
text. -/
def expandT : List Tok → Str → Str
  | [], _ => []
  | Tok.lit c :: ts, m => c :: expandT ts m
  | Tok.group0 :: ts, m => m ++ expandT ts m

/-- `re.sub` of the pattern with a parsed template, fueled: like `subScanF`,
but each match is replaced by the template expanded at the matched text. -/
def subScanTF (toks : List Tok) : Nat → Str → Str
  | _, [] => []
  | 0, _ :: _ => []
  | fuel + 1, c :: rest =>
    match matchAt (c :: rest) with
    | some t =>
      expandT toks ((c :: rest).take ((c :: rest).length - t.length)) ++
        (match t with
          | [] => []
          | c2 :: t2 => c2 :: subScanTF toks fuel t2)
    | none =>
      let p := copyToNL (c :: rest)
      p.1 ++ subScanTF toks fuel p.2

/-- `re.sub` of `^output_name\s*=\s*.*$` (MULTILINE) with a parsed
template. -/
def subScanT (toks : List Tok) (cs : Str) : Str := subScanTF toks cs.length cs

/-- A backslash-free replacement parses to all-literal tokens. -/
def litToks (r : Str) : List Tok := r.map Tok.lit

/-- `update_sunshine_config` of `update_sunshine_display.py` (lines 130-161),
acting on the configuration file's content (`[]`-content stands for a missing
file, which the source reads as the empty string).  If the pattern matches
somewhere, `re.sub` processes the replacement `output_name = <id>` as a
template (an `re.error`/`IndexError` it raises propagates, modelled as
`Except.error`) and replaces every match in place; otherwise the new line is
appended literally, after first terminating a non-newline-terminated
content. -/
def update_sunshine_config (display_id : Str) (content : Str) : Except PyExc Str :=
  if hasMatch content then
    match parse_template (newConfigLine display_id) with
    | .error e => .error e
    | .ok toks => .ok (subScanT toks content)
  else
    .ok ((if content ≠ [] ∧ content.getLast? ≠ some '\n' then content ++ ['\n'] else content)
      ++ newConfigLine display_id ++ ['\n'])


/-- The line scan of `detect_sunshine_service` (lines 192-200): first line
containing `sunshine-beta` wins, else first line containing `sunshine`;
`started` in the winning line means running. -/
def detectScanLines : List Str → Option (Str × Bool)
  | [] => none
  | line :: rest =>
    if isSubstrB "sunshine-beta".toList line then
      some ("sunshine-beta".toList, isSubstrB "started".toList line)
    else if isSubstrB "sunshine".toList line && !isSubstrB "sunshine-beta".toList line then
      some ("sunshine".toList, isSubstrB "started".toList line)
    else detectScanLines rest

/-- `detect_sunshine_service` (lines 184-203): a raised `brew services list`
is caught and yields `(none, false)`. -/
def detect_sunshine_service (brewList : CallResult) : Option Str × Bool :=
  match brewList with
  | .error _ => (none, false)
  | .ok r =>
    match detectScanLines (splitNL r.stdout) with
    | some (s, b) => (some s, b)
    | none => (none, false)

/-- `is_sunshine_running` (lines 206-215): `pgrep -x sunshine` returned 0; a
raised call is caught and counts as not running. -/
def is_sunshine_running (pgrep : CallResult) : Bool :=
  match pgrep with
  | .ok r => decide (r.returncode = 0)
  | .error _ => false

/-- The outcomes of the external calls `restart_sunshine` can make, one field
per call site (lines 258-347). -/
structure RestartOracle where
  brewList : CallResult
  brewRestart : CallResult
  brewStop : CallResult
  brewStart : CallResult
  kickBeta : CallResult
  kickPrimary : CallResult
  idU : CallResult
  lcStopBeta : CallResult
  lcStartBeta : CallResult
  lcStopPrimary : CallResult
  lcStartPrimary : CallResult
  pkill : CallResult
deriving DecidableEq

/-- The body of the `brew services` try-block of `restart_sunshine` (lines
265-295): restart, then stop-and-start; an exception propagates out of the
body (to be caught by the block's handlers). -/
def brewBlockBody (o : RestartOracle) (svc : Str) : Except PyExc (Option (Bool × Str)) :=
  match o.brewRestart with
  | .error e => .error e
  | .ok r =>
    if r.returncode = 0 then
      .ok (some (true, "Restarted via brew services (".toList ++ svc ++ ")".toList))
    else
      match o.brewStop with
      | .error e => .error e
      | .ok _ =>
        match o.brewStart with
        | .error e => .error e
        | .ok r2 =>
          if r2.returncode = 0 then
            .ok (some (true, "Force restarted via brew services (".toList ++ svc ++ ")".toList))
          else .ok none

/-- The `brew services` strategy (lines 263-301): skipped when no service was
detected; `TimeoutExpired`, `FileNotFoundError` and any other exception are
caught and fall through to the next strategy. -/
def brewBlock (o : RestartOracle) (svc : Option Str) : Option (Bool × Str) :=
  match svc with
  | none => none
  | some s =>
    match brewBlockBody o s with
    | .ok v => v
    | .error _ => none

/-- One iteration of the `launchctl kickstart -k` loop (lines 304-315): its
own try-block, so an exception only skips this iteration. -/
def kickTryOne (c : CallResult) (label : Str) : Option (Bool × Str) :=
  match c with
  | .ok r =>
    if r.returncode = 0 then
      some (true, "Restarted via launchctl kickstart (".toList ++ label ++ ")".toList)
    else none
  | .error _ => none

/-- The `launchctl kickstart -k` strategy: beta label first, then primary. -/
def kickBlock (o : RestartOracle) : Option (Bool × Str) :=
  match kickTryOne o.kickBeta "homebrew.mxcl.sunshine-beta".toList with
  | some v => some v
  | none => kickTryOne o.kickPrimary "homebrew.mxcl.sunshine".toList

/-- The body of the `launchctl stop`/`start` try-block (lines 318-340): one
try wraps `id -u` and the whole loop, so any exception aborts the block. -/
def lcBlockBody (o : RestartOracle) : Except PyExc (Option (Bool × Str)) :=
  match o.idU with
  | .error e => .error e
  | .ok _ =>
    match o.lcStopBeta with
    | .error e => .error e
    | .ok _ =>
      match o.lcStartBeta with
      | .error e => .error e
      | .ok r =>
        if r.returncode = 0 then
          .ok (some (true, "Restarted via launchctl stop/start (homebrew.mxcl.sunshine-beta)".toList))
        else
          match o.lcStopPrimary with
          | .error e => .error e
          | .ok _ =>
            match o.lcStartPrimary with
            | .error e => .error e
            | .ok r2 =>
              if r2.returncode = 0 then
                .ok (some (true, "Restarted via launchctl stop/start (homebrew.mxcl.sunshine)".toList))
              else .ok none

/-- The `launchctl stop`/`start` strategy: an exception is caught and falls
through to the last resort. -/
def lcBlock (o : RestartOracle) : Option (Bool × Str) :=
  match lcBlockBody o with
  | .ok v => v
  | .error _ => none

/-- `restart_sunshine` (lines 258-347) as the fallback chain over the oracle.
The `Except` result type makes exception propagation visible: a `.error`
result would mean an uncaught exception escaping the function. -/
def restart_sunshine (o : RestartOracle) : Except PyExc (Bool × Str) :=
  let svc := (detect_sunshine_service o.brewList).1
  match brewBlock o svc with
  | some v => .ok v
  | none =>
    match kickBlock o with
    | some v => .ok v
    | none =>
      match lcBlock o with
      | some v => .ok v
      | none =>
        match o.pkill with
        | .ok _ => .ok (true, "Force killed (service should auto-restart via launchd)".toList)
        | .error e => .ok (false, "Could not restart: ".toList ++ excMsg e)

/-- The external calls `ensure_sunshine_running` can make. -/
structure EnsureOracle where
  pgrep : CallResult
  brewList : CallResult
  brewStart : CallResult
  idU : CallResult
  kickBeta : CallResult
  kickPrimary : CallResult
deriving DecidableEq

/-- The call sites of `ensure_sunshine_running`, for its invocation log. -/
inductive SCall where
  | pgrep | brewList | brewStart | idU | kickBeta | kickPrimary
deriving DecidableEq

/-- The launchctl-kickstart part of `ensure_sunshine_running` (lines 239-253):
one try wraps `id -u` and the loop, so an exception aborts the whole part;
`kickPrimary` runs only when `kickBeta` completed with a nonzero code. -/
def ensureKickPart (o : EnsureOracle) (log : List SCall) : (Bool × Str) × List SCall :=
  match o.idU with
  | .error _ => ((false, "Could not start Sunshine".toList), log ++ [SCall.idU])
  | .ok _ =>
    match o.kickBeta with
    | .error _ => ((false, "Could not start Sunshine".toList), log ++ [SCall.idU, SCall.kickBeta])
    | .ok r =>
      if r.returncode = 0 then
        ((true, "Started via launchctl (homebrew.mxcl.sunshine-beta)".toList),
          log ++ [SCall.idU, SCall.kickBeta])
      else
        match o.kickPrimary with
        | .error _ =>
          ((false, "Could not start Sunshine".toList),
            log ++ [SCall.idU, SCall.kickBeta, SCall.kickPrimary])
        | .ok r2 =>
          if r2.returncode = 0 then
            ((true, "Started via launchctl (homebrew.mxcl.sunshine)".toList),
              log ++ [SCall.idU, SCall.kickBeta, SCall.kickPrimary])
          else
            ((false, "Could not start Sunshine".toList),
              log ++ [SCall.idU, SCall.kickBeta, SCall.kickPrimary])

/-- `ensure_sunshine_running` (lines 218-255), returning its result and the
log of external calls it made, in order. -/
def ensure_sunshine_running (o : EnsureOracle) : (Bool × Str) × List SCall :=
  if is_sunshine_running o.pgrep then
    ((true, "Sunshine already running".toList), [SCall.pgrep])
  else
    match (detect_sunshine_service o.brewList).1 with
    | some s =>
      match o.brewStart with
      | .ok r =>
        if r.returncode = 0 then
          ((true, "Started via brew services (".toList ++ s ++ ")".toList),
            [SCall.pgrep, SCall.brewList, SCall.brewStart])
        else ensureKickPart o [SCall.pgrep, SCall.brewList, SCall.brewStart]
      | .error _ => ensureKickPart o [SCall.pgrep, SCall.brewList, SCall.brewStart]
    | none => ensureKickPart o [SCall.pgrep, SCall.brewList]

/-! ### Reconciliation passes -/

/-- What one reconciliation pass of `auto_update_sunshine_display.py` did:
its exit code, the configuration content afterwards, whether it wrote the
file, and whether it invoked `restart_sunshine`. -/
structure Pass where
  exitCode : Int
  conf : Option Str
  wrote : Bool
  restarted : Bool
deriving DecidableEq

/-- `main` of `auto_update_sunshine_display.py` (lines 71-113) after the
settings are loaded: resolve the target, compare the stored id, and update
and restart only on drift.  `conf` is the configuration file's content
(`none` = missing file).  An exception raised by the update (a template
error of `re.sub`) is unhandled there: the interpreter exits 1 with the file
unwritten and no restart. -/
def auto_reconcile_pass (no_restart : Bool) (displays : List Display) (target : Str)
    (conf : Option Str) : Pass :=
  match find_display_by_name target displays with
  | none => { exitCode := 1, conf := conf, wrote := false, restarted := false }
  | some d =>
    let current := get_current_sunshine_display conf
    if current = some d.id then
      { exitCode := 0, conf := conf, wrote := false, restarted := false }
    else
      match update_sunshine_config d.id (conf.getD []) with
      | .error _ => { exitCode := 1, conf := conf, wrote := false, restarted := false }
      | .ok newC =>
        { exitCode := 0, conf := some newC, wrote := true, restarted := !no_restart }

/-- How one iteration of the `cmd_watch` loop ends: return with an exit code,
or sleep for the check interval and run another iteration. -/
inductive IterOut where
  | ret : Int → IterOut
  | sleepRepeat : IterOut
deriving DecidableEq

/-- The side effects of one `cmd_watch` iteration. -/
structure IterState where
  conf : Option Str
  wrote : Bool
  restarted : Bool
deriving DecidableEq

/-- One iteration of the `while True` loop of `cmd_watch`
(`update_sunshine_display.py` lines 434-482), with the external outcomes
passed in.  `ensure_sunshine_running` runs first and touches neither the
configuration nor `restart_sunshine`.  When the target display is not found
the source sleeps and continues — in daemon and non-daemon mode alike.  An
exception raised by the update hits the iteration's `except Exception`
handler: return 1 in non-daemon mode, sleep and repeat in daemon mode. -/
def watch_iteration (daemon no_restart : Bool) (target : Str) (displays : List Display)
    (conf : Option Str) : IterOut × IterState :=
  match find_display_by_name target displays with
  | none => (.sleepRepeat, ⟨conf, false, false⟩)
  | some d =>
    let current := get_current_sunshine_display conf
    if current = some d.id then
      ((if daemon then .sleepRepeat else .ret 0), ⟨conf, false, false⟩)
    else
      match update_sunshine_config d.id (conf.getD []) with
      | .error _ => ((if daemon then .sleepRepeat else .ret 1), ⟨conf, false, false⟩)
      | .ok newC =>
        ((if daemon then .sleepRepeat else .ret 0), ⟨some newC, true, !no_restart⟩)

/-! ## Theorems -/

/-! ### Generic list helpers -/

theorem find?_some_decomp {α : Type} (p : α → Bool) :
    ∀ (l : List α) (a : α), l.find? p = some a →
      p a = true ∧ ∃ l1 l2, l = l1 ++ a :: l2 ∧ ∀ x ∈ l1, p x = false := by
  intro l
  induction l with
  | nil => intro a h; simp [List.find?] at h
  | cons x xs ih =>
    intro a h
    by_cases hx : p x = true
    · rw [List.find?_cons_of_pos _ hx] at h
      cases h
      exact ⟨hx, [], xs, rfl, by simp⟩
    · rw [List.find?_cons_of_neg _ hx] at h
      obtain ⟨hpa, l1, l2, rfl, hl1⟩ := ih a h
      refine ⟨hpa, x :: l1, l2, rfl, ?_⟩
      intro y hy
      rcases List.mem_cons.mp hy with rfl | hy
      · simpa using hx
      · exact hl1 y hy

/-! ### Matcher lemmas -/

/-- A record matching the query exactly (case-insensitively). -/
def exactMatchB (q : Str) (d : Display) : Bool := decide (lowerStr d.name = lowerStr q)

/-- A record containing the query as a case-insensitive substring. -/
def subMatchB (q : Str) (d : Display) : Bool := isSubstrB (lowerStr q) (lowerStr d.name)

theorem findExactIn_eq_find? (nl : Str) (ds : List Display) :
    findExactIn nl ds = ds.find? (fun d => decide (lowerStr d.name = nl)) := by
  induction ds with
  | nil => rfl
  | cons d ds ih =>
    by_cases h : lowerStr d.name = nl
    · simp [findExactIn, h, List.find?_cons]
    · simp [findExactIn, h, List.find?_cons, ih]

theorem findSubIn_eq_find? (nl : Str) (ds : List Display) :
    findSubIn nl ds = ds.find? (fun d => isSubstrB nl (lowerStr d.name)) := by
  induction ds with
  | nil => rfl
  | cons d ds ih =>
    by_cases h : isSubstrB nl (lowerStr d.name) = true
    · simp [findSubIn, h, List.find?_cons]
    · simp only [Bool.not_eq_true] at h
      simp [findSubIn, h, List.find?_cons, ih]

/-- C3: for every name and every enumerated sequence of display records,
`find_display_by_name` returns the first record in enumeration order whose
name equals the query case-insensitively; failing that, the first record whose
name contains the query as a case-insensitive substring; and it returns `none`
exactly when neither tier matches any record (in particular on the empty
sequence). -/
theorem find_display_by_name_two_tier (q : Str) (ds : List Display) :
    (∀ d, find_display_by_name q ds = some d →
        (exactMatchB q d = true ∧
          ∃ l1 l2, ds = l1 ++ d :: l2 ∧ ∀ e ∈ l1, exactMatchB q e = false) ∨
        ((∀ e ∈ ds, exactMatchB q e = false) ∧ subMatchB q d = true ∧
          ∃ l1 l2, ds = l1 ++ d :: l2 ∧ ∀ e ∈ l1, subMatchB q e = false)) ∧
    (find_display_by_name q ds = none ↔
      ∀ e ∈ ds, exactMatchB q e = false ∧ subMatchB q e = false) := by
  unfold find_display_by_name
  cases hE : findExactIn (lowerStr q) ds with
  | some d0 =>
    simp only [hE]
    rw [findExactIn_eq_find?] at hE
    obtain ⟨hp, l1, l2, heq, hl1⟩ := find?_some_decomp _ _ _ hE
    constructor
    · intro d hd
      injection hd with hd
      subst hd
      left
      refine ⟨by simpa [exactMatchB] using hp, l1, l2, heq, ?_⟩
      intro e he
      simpa [exactMatchB] using hl1 e he
    · simp only [reduceCtorEq, false_iff]
      intro hall
      have hmem : d0 ∈ ds := heq ▸ List.mem_append_right _ (List.mem_cons_self _ _)
      have h1 := (hall d0 hmem).1
      simp only [exactMatchB] at h1
      simp only [decide_eq_true_eq] at hp
      simp [hp] at h1
  | none =>
    simp only [hE]
    rw [findExactIn_eq_find?] at hE
    have hEnone : ∀ e ∈ ds, exactMatchB q e = false := by
      intro e he
      have := List.find?_eq_none.mp hE e he
      simpa [exactMatchB] using this
    cases hS : findSubIn (lowerStr q) ds with
    | some d0 =>
      rw [findSubIn_eq_find?] at hS
      obtain ⟨hp, l1, l2, heq, hl1⟩ := find?_some_decomp _ _ _ hS
      constructor
      · intro d hd
        injection hd with hd
        subst hd
        right
        exact ⟨hEnone, by simpa [subMatchB] using hp, l1, l2, heq,
          fun e he => by simpa [subMatchB] using hl1 e he⟩
      · simp only [reduceCtorEq, false_iff]
        intro hall
        have hmem : d0 ∈ ds := heq ▸ List.mem_append_right _ (List.mem_cons_self _ _)
        have h2 := (hall d0 hmem).2
        simp only [subMatchB] at h2
        simp [hp] at h2
    | none =>
      rw [findSubIn_eq_find?] at hS
      have hSnone : ∀ e ∈ ds, subMatchB q e = false := by
        intro e he
        have := List.find?_eq_none.mp hS e he
        simpa [subMatchB] using this
      constructor
      · intro d hd
        simp at hd
      · exact ⟨fun _ e he => ⟨hEnone e he, hSnone e he⟩, fun _ => rfl⟩

theorem isSubstrB_nil_left (l : Str) : isSubstrB [] l = true := by
  cases l <;> simp [isSubstrB, List.isPrefixOf]

/-- C10: with a non-empty record sequence, the empty query never yields
`none`; when no record's name is empty, the substring tier returns the very
first record (the empty string is a substring of every name). -/
theorem find_display_empty_query (ds : List Display) (h : ds ≠ []) :
    find_display_by_name [] ds ≠ none ∧
    ((∀ d ∈ ds, d.name ≠ []) → find_display_by_name [] ds = ds.head?) := by
  obtain ⟨d, ds', rfl⟩ := List.exists_cons_of_ne_nil h
  have hsub : findSubIn (lowerStr []) (d :: ds') = some d := by
    simp [lowerStr, findSubIn, isSubstrB_nil_left]
  constructor
  · unfold find_display_by_name
    cases hE : findExactIn (lowerStr []) (d :: ds') with
    | some d0 => simp [hE]
    | none => simp [hE, hsub]
  · intro hn
    have hE : findExactIn (lowerStr []) (d :: ds') = none := by
      rw [findExactIn_eq_find?]
      refine List.find?_eq_none.mpr ?_
      intro e he
      simp only [lowerStr, List.map_nil, decide_eq_true_eq, List.map_eq_nil_iff]
      exact hn e he
    unfold find_display_by_name
    simp [hE, hsub]

/-- Witness for C10 on a one-record enumeration. -/
theorem find_display_empty_query_example :
    find_display_by_name []
      [⟨"TV".toList, "1".toList, [], [], false, false⟩] ≠ none ∧
    ((∀ d ∈ [(⟨"TV".toList, "1".toList, [], [], false, false⟩ : Display)], d.name ≠ []) →
      find_display_by_name [] [⟨"TV".toList, "1".toList, [], [], false, false⟩] =
        [(⟨"TV".toList, "1".toList, [], [], false, false⟩ : Display)].head?) :=
  find_display_empty_query _ (by decide)

/-! ### Identifier-normalization lemmas -/

/-- The base-16 value of a plain string of hexadecimal digits. -/
def hexStrVal (s : Str) : Nat := s.foldl (fun a c => 16 * a + (hexVal c).getD 0) 0

theorem hexVal_isSome_not_space (c : Char) (h : (hexVal c).isSome) : isPySpace c = false := by
  simp only [hexVal] at h
  simp only [isPySpace, decide_eq_false_iff_not]
  split at h
  · omega
  · split at h
    · omega
    · split at h
      · omega
      · simp at h

theorem hexDigitsGo_all_digits (l : Str) (acc : Nat) (h : ∀ c ∈ l, (hexVal c).isSome) :
    hexDigitsGo acc l = some (l.foldl (fun a c => 16 * a + (hexVal c).getD 0) acc) := by
  induction l generalizing acc with
  | nil => simp [hexDigitsGo]
  | cons c rest ih =>
    have hc := h c (List.mem_cons_self _ _)
    have hne : c ≠ '_' := by
      intro he
      rw [he] at hc
      exact absurd hc (by decide)
    obtain ⟨v, hv⟩ := Option.isSome_iff_exists.mp hc
    rw [List.foldl_cons]
    unfold hexDigitsGo
    rw [if_neg hne]
    simp only [hv, Option.getD_some]
    exact ih _ (fun x hx => h x (List.mem_cons_of_mem _ hx))

theorem hexDigits1_all_digits (l : Str) (h0 : l ≠ []) (h : ∀ c ∈ l, (hexVal c).isSome) :
    hexDigits1 l = some (hexStrVal l) := by
  obtain ⟨c, rest, rfl⟩ := List.exists_cons_of_ne_nil h0
  have hc := h c (List.mem_cons_self _ _)
  have hne : c ≠ '_' := by
    intro he
    rw [he] at hc
    exact absurd hc (by decide)
  obtain ⟨v, hv⟩ := Option.isSome_iff_exists.mp hc
  show hexDigits1 (c :: rest) = some (hexStrVal (c :: rest))
  unfold hexDigits1
  simp only [if_neg hne, hv]
  rw [hexDigitsGo_all_digits _ _ (fun x hx => h x (List.mem_cons_of_mem _ hx))]
  simp [hexStrVal, hv]

theorem dropWhile_eq_self_of_all {α : Type} (p : α → Bool) (l : List α)
    (h : ∀ c ∈ l, p c = false) : l.dropWhile p = l := by
  cases l with
  | nil => rfl
  | cons c rest => exact List.dropWhile_cons_of_neg (by simp [h c (List.mem_cons_self _ _)])

theorem hexVal_isSome_not_asciispace (c : Char) (h : (hexVal c).isSome) :
    isAsciiSpace c = false := by
  simp only [hexVal] at h
  simp only [isAsciiSpace, decide_eq_false_iff_not]
  split at h
  · omega
  · split at h
    · omega
    · split at h
      · omega
      · simp at h

theorem hexVal_isSome_lt_127 (c : Char) (h : (hexVal c).isSome) : c.toNat < 127 := by
  simp only [hexVal] at h
  split at h
  · omega
  · split at h
    · omega
    · split at h
      · omega
      · simp at h

theorem pyTransform_all_digits :
    ∀ s : Str, (∀ c ∈ s, (hexVal c).isSome) → pyTransform s = some s := by
  intro s
  induction s with
  | nil => intro _; rfl
  | cons c rest ih =>
    intro h
    have hc : pyTransformChar c = some c := by
      unfold pyTransformChar
      rw [if_pos (hexVal_isSome_lt_127 c (h c (List.mem_cons_self _ _)))]
    show pyTransform (c :: rest) = some (c :: rest)
    simp only [pyTransform, hc, ih (fun x hx => h x (List.mem_cons_of_mem _ hx))]
    rfl

theorem pyIntHex_all_digits (s : Str) (h0 : s ≠ []) (h : ∀ c ∈ s, (hexVal c).isSome) :
    pyIntHex s = some (Int.ofNat (hexStrVal s)) := by
  have htr : pyIntHex s = pyIntHexAscii s := by
    unfold pyIntHex
    rw [pyTransform_all_digits s h]
    rfl
  rw [htr]
  have hns : ∀ c ∈ s, isAsciiSpace c = false :=
    fun c hc => hexVal_isSome_not_asciispace c (h c hc)
  have hstrip1 : dropAS s.reverse = s.reverse :=
    dropWhile_eq_self_of_all _ _ (fun c hc => hns c (List.mem_reverse.mp hc))
  have hstrip : dropAS ((dropAS s.reverse).reverse) = s := by
    rw [hstrip1, List.reverse_reverse]
    exact dropWhile_eq_self_of_all _ _ hns
  obtain ⟨c, rest, rfl⟩ := List.exists_cons_of_ne_nil h0
  have hc := h c (List.mem_cons_self _ _)
  have hplus : c ≠ '+' := by intro he; rw [he] at hc; exact absurd hc (by decide)
  have hminus : c ≠ '-' := by intro he; rw [he] at hc; exact absurd hc (by decide)
  have hpas : parseAfterSign (c :: rest) = hexDigits1 (c :: rest) := by
    cases rest with
    | nil => rfl
    | cons x rest2 =>
      have hx := h x (by simp)
      have hxx : x ≠ 'x' := by intro he; rw [he] at hx; exact absurd hx (by decide)
      have hxX : x ≠ 'X' := by intro he; rw [he] at hx; exact absurd hx (by decide)
      simp [parseAfterSign, hxx, hxX]
  unfold pyIntHexAscii
  rw [hstrip]
  simp only [hplus, hminus, if_false]
  rw [hpas, hexDigits1_all_digits _ h0 h]
  rfl

/-- C4: the enumerator's identifier normalization converts a string that
parses in base 16 (including CPython's Unicode decimal-digit transform) to
the decimal representation of its value, and passes any other string through
verbatim; in particular `"a"` becomes `"10"`, an Arabic-Indic digit five
becomes `"5"`, `"a٢"` becomes `"162"`, and `"xyz"` is unchanged. -/
theorem normalize_display_id_spec :
    (∀ s : Str, s ≠ [] → (∀ c ∈ s, (hexVal c).isSome) →
      normalize_display_id s = (toString (hexStrVal s)).toList) ∧
    (∀ s n, pyIntHex s = some n → normalize_display_id s = (toString n).toList) ∧
    (∀ s : Str, pyIntHex s = none → normalize_display_id s = s) ∧
    normalize_display_id "a".toList = "10".toList ∧
    normalize_display_id "٥".toList = "5".toList ∧
    normalize_display_id "a٢".toList = "162".toList ∧
    normalize_display_id "xyz".toList = "xyz".toList := by
  refine ⟨?_, ?_, ?_, by decide, by decide, by decide, by decide⟩
  · intro s h1 h2
    unfold normalize_display_id
    rw [pyIntHex_all_digits s h1 h2]
    rfl
  · intro s n h
    unfold normalize_display_id
    rw [h]
  · intro s h
    unfold normalize_display_id
    rw [h]

theorem brewBlock_shape (o : RestartOracle) (svc : Option Str) :
    brewBlock o svc = none ∨ ∃ m, brewBlock o svc = some (true, m) := by
  unfold brewBlock brewBlockBody
  rcases svc with _ | s
  · exact Or.inl (by simp)
  · cases h1 : o.brewRestart with
    | error e => simp only [h1]; exact Or.inl (by simp)
    | ok r =>
      simp only [h1]
      by_cases h0 : r.returncode = 0
      · simp only [if_pos h0]
        exact Or.inr ⟨_, rfl⟩
      · simp only [if_neg h0]
        cases h2 : o.brewStop with
        | error e => simp only [h2]; exact Or.inl (by simp)
        | ok r2 =>
          simp only [h2]
          cases h3 : o.brewStart with
          | error e => simp only [h3]; exact Or.inl (by simp)
          | ok r3 =>
            simp only [h3]
            by_cases h4 : r3.returncode = 0
            · simp only [if_pos h4]
              exact Or.inr ⟨_, rfl⟩
            · simp only [if_neg h4]
              exact Or.inl (by simp)

theorem kickBlock_shape (o : RestartOracle) :
    kickBlock o = none ∨ ∃ m, kickBlock o = some (true, m) := by
  unfold kickBlock kickTryOne
  cases h1 : o.kickBeta with
  | error e =>
    simp only [h1]
    cases h2 : o.kickPrimary with
    | error e2 => simp only [h2]; exact Or.inl (by simp)
    | ok r2 =>
      simp only [h2]
      by_cases h0 : r2.returncode = 0
      · simp only [if_pos h0]
        exact Or.inr ⟨_, rfl⟩
      · simp only [if_neg h0]
        exact Or.inl (by simp)
  | ok r =>
    simp only [h1]
    by_cases h0 : r.returncode = 0
    · simp only [if_pos h0]
      exact Or.inr ⟨_, rfl⟩
    · simp only [if_neg h0]
      cases h2 : o.kickPrimary with
      | error e2 => simp only [h2]; exact Or.inl (by simp)
      | ok r2 =>
        simp only [h2]
        by_cases h3 : r2.returncode = 0
        · simp only [if_pos h3]
          exact Or.inr ⟨_, rfl⟩
        · simp only [if_neg h3]
          exact Or.inl (by simp)

theorem lcBlock_shape (o : RestartOracle) :
    lcBlock o = none ∨ ∃ m, lcBlock o = some (true, m) := by
  unfold lcBlock lcBlockBody
  cases h1 : o.idU with
  | error e => simp only [h1]; exact Or.inl (by simp)
  | ok r0 =>
    simp only [h1]
    cases h2 : o.lcStopBeta with
    | error e => simp only [h2]; exact Or.inl (by simp)
    | ok r1 =>
      simp only [h2]
      cases h3 : o.lcStartBeta with
      | error e => simp only [h3]; exact Or.inl (by simp)
      | ok r2 =>
        simp only [h3]
        by_cases h0 : r2.returncode = 0
        · simp only [if_pos h0]
          exact Or.inr ⟨_, rfl⟩
        · simp only [if_neg h0]
          cases h4 : o.lcStopPrimary with
          | error e => simp only [h4]; exact Or.inl (by simp)
          | ok r3 =>
            simp only [h4]
            cases h5 : o.lcStartPrimary with
            | error e => simp only [h5]; exact Or.inl (by simp)
            | ok r4 =>
              simp only [h5]
              by_cases h6 : r4.returncode = 0
              · simp only [if_pos h6]
                exact Or.inr ⟨_, rfl⟩
              · simp only [if_neg h6]
                exact Or.inl (by simp)

theorem brewBlock_some_fst (o : RestartOracle) (svc : Option Str) (v : Bool × Str)
    (h : brewBlock o svc = some v) : v.1 = true := by
  rcases brewBlock_shape o svc with h0 | ⟨m, h0⟩ <;> rw [h0] at h
  · cases h
  · injection h with h
    rw [← h]

theorem kickBlock_some_fst (o : RestartOracle) (v : Bool × Str)
    (h : kickBlock o = some v) : v.1 = true := by
  rcases kickBlock_shape o with h0 | ⟨m, h0⟩ <;> rw [h0] at h
  · cases h
  · injection h with h
    rw [← h]

theorem lcBlock_some_fst (o : RestartOracle) (v : Bool × Str)
    (h : lcBlock o = some v) : v.1 = true := by
  rcases lcBlock_shape o with h0 | ⟨m, h0⟩ <;> rw [h0] at h
  · cases h
  · injection h with h
    rw [← h]

/-- C7: `restart_sunshine` is total over every outcome of its external calls:
no exception propagates (the result is always `.ok` with an (ok, message)
pair), and a failing result only arises from the last-resort kill raising,
with the non-empty message `Could not restart: ...`. -/
theorem restart_sunshine_total (o : RestartOracle) :
    ∃ v : Bool × Str, restart_sunshine o = Except.ok v ∧
      (v.1 = false →
        v.2 ≠ [] ∧ ∃ e, o.pkill = Except.error e ∧
          v.2 = "Could not restart: ".toList ++ excMsg e) := by
  unfold restart_sunshine
  cases hb : brewBlock o (detect_sunshine_service o.brewList).1 with
  | some v =>
    refine ⟨v, by simp [hb], fun hf => ?_⟩
    rw [brewBlock_some_fst o _ v hb] at hf
    cases hf
  | none =>
    simp only [hb]
    cases hk : kickBlock o with
    | some v =>
      refine ⟨v, by simp [hk], fun hf => ?_⟩
      rw [kickBlock_some_fst o v hk] at hf
      cases hf
    | none =>
      simp only [hk]
      cases hl : lcBlock o with
      | some v =>
        refine ⟨v, by simp [hl], fun hf => ?_⟩
        rw [lcBlock_some_fst o v hl] at hf
        cases hf
      | none =>
        simp only [hl]
        cases hp : o.pkill with
        | ok r =>
          refine ⟨(true, "Force killed (service should auto-restart via launchd)".toList),
            ?_, ?_⟩
          · simp [hp]
          · simp
        | error e =>
          refine ⟨(false, "Could not restart: ".toList ++ excMsg e), ?_,
            fun _ => ⟨?_, e, rfl, rfl⟩⟩
          · simp [hp]
          · intro hnil
            have : ("Could not restart: ".toList : Str) = [] := (List.append_eq_nil.mp hnil).1
            exact absurd this (by decide)

/-- C8: whenever the process-table check reports a running process,
`ensure_sunshine_running` succeeds immediately — the call log is just the
`pgrep` check, so neither supervisor detection nor any start strategy runs,
whatever the supervisor would report. -/
theorem ensure_running_short_circuit (o : EnsureOracle)
    (h : is_sunshine_running o.pgrep = true) :
    ensure_sunshine_running o =
      ((true, "Sunshine already running".toList), [SCall.pgrep]) := by
  unfold ensure_sunshine_running
  rw [if_pos h]

/-- Witness for C8 at a concrete oracle whose supervisor listing says the
service is stopped while the process table says it runs. -/
theorem ensure_running_short_circuit_example :
    ensure_sunshine_running
      ⟨Except.ok ⟨0, [], []⟩, Except.ok ⟨0, "sunshine stopped".toList, []⟩,
        Except.error PyExc.fileNotFound, Except.ok ⟨0, "501".toList, []⟩,
        Except.ok ⟨0, [], []⟩, Except.ok ⟨0, [], []⟩⟩ =
      ((true, "Sunshine already running".toList), [SCall.pgrep]) :=
  ensure_running_short_circuit _ (by decide)

/-- C9: when every brew-services and launchctl strategy has failed and the
`pkill` call itself raises no exception, `restart_sunshine` reports success —
whatever `pkill`'s exit status, in particular status 1 (no process matched,
no signal delivered). -/
theorem restart_last_resort_ignores_exit_code (o : RestartOracle) (r : Run)
    (hbrew : brewBlock o (detect_sunshine_service o.brewList).1 = none)
    (hkick : kickBlock o = none) (hlc : lcBlock o = none)
    (hpkill : o.pkill = Except.ok r) :
    restart_sunshine o =
      Except.ok (true, "Force killed (service should auto-restart via launchd)".toList) := by
  unfold restart_sunshine
  simp only [hbrew, hkick, hlc, hpkill]

/-- Witness for C9: every strategy call raises, `pkill` completes with exit
status 1 (nothing matched), and the function still reports success. -/
theorem restart_last_resort_example :
    restart_sunshine
      ⟨Except.error (PyExc.otherExc []), Except.error (PyExc.otherExc []),
        Except.error (PyExc.otherExc []), Except.error (PyExc.otherExc []),
        Except.error (PyExc.otherExc []), Except.error (PyExc.otherExc []),
        Except.error (PyExc.otherExc []), Except.error (PyExc.otherExc []),
        Except.error (PyExc.otherExc []), Except.error (PyExc.otherExc []),
        Except.error (PyExc.otherExc []), Except.ok ⟨1, [], []⟩⟩ =
      Except.ok (true, "Force killed (service should auto-restart via launchd)".toList) :=
  restart_last_resort_ignores_exit_code _ ⟨1, [], []⟩ (by decide) (by decide) (by decide) rfl

/-! ### Reconciliation-pass theorems -/

/-- C1: in any reconciliation pass — the one-shot `auto_update` pass or one
`cmd_watch` iteration — in which the stored output id read from the
configuration equals the resolved display's id, the configuration content is
unchanged, no write happens, `restart_sunshine` is not invoked, and the pass
exits 0 (a non-daemon watch iteration returns 0; a daemon iteration just goes
back to sleep with the same no-write, no-restart state). -/
theorem output_id_unchanged_skips_write_and_restart
    (no_restart : Bool) (displays : List Display) (target : Str) (conf : Option Str)
    (d : Display)
    (hfind : find_display_by_name target displays = some d)
    (hcur : get_current_sunshine_display conf = some d.id) :
    auto_reconcile_pass no_restart displays target conf =
      { exitCode := 0, conf := conf, wrote := false, restarted := false } ∧
    (∀ daemon nr2 : Bool,
      watch_iteration daemon nr2 target displays conf =
        ((if daemon then IterOut.sleepRepeat else IterOut.ret 0),
          ⟨conf, false, false⟩)) := by
  constructor
  · unfold auto_reconcile_pass
    simp [hfind, hcur]
  · intro daemon nr2
    unfold watch_iteration
    cases daemon <;> simp [hfind, hcur]

/-- Witness for C1 at a concrete enumeration and configuration whose stored
id already equals the resolved display's id. -/
theorem output_id_unchanged_example :
    auto_reconcile_pass false
      [⟨"Office Monitor".toList, "3".toList, [], [], true, true⟩]
      "Office Monitor".toList (some "output_name = 3\n".toList) =
      { exitCode := 0, conf := some "output_name = 3\n".toList,
        wrote := false, restarted := false } ∧
    (∀ daemon nr2 : Bool,
      watch_iteration daemon nr2 "Office Monitor".toList
        [⟨"Office Monitor".toList, "3".toList, [], [], true, true⟩]
        (some "output_name = 3\n".toList) =
        ((if daemon then IterOut.sleepRepeat else IterOut.ret 0),
          ⟨some "output_name = 3\n".toList, false, false⟩)) :=
  output_id_unchanged_skips_write_and_restart false _ _ _
    ⟨"Office Monitor".toList, "3".toList, [], [], true, true⟩ (by decide) (by decide)

/-- C6 (the code as written): with `daemon = false` and the target display
not found, one `cmd_watch` iteration does not return an exit code — it sleeps
and repeats, contradicting the one-iteration contract of non-daemon mode. -/
theorem watch_nondaemon_unfound_repeats :
    watch_iteration false false "Office Monitor".toList [] none =
      (IterOut.sleepRepeat, ⟨none, false, false⟩) := by decide

/-! ### Scanner infrastructure: `copyToNL`, `matchAt`, fuel adequacy -/

theorem copyToNL_append_snd : ∀ cs : Str, (copyToNL cs).1 ++ (copyToNL cs).2 = cs := by
  intro cs
  induction cs with
  | nil => rfl
  | cons c rest ih =>
    by_cases h : c = '\n' <;> simp [copyToNL, h, ih]

theorem copyToNL_snd_length (c : Char) (rest : Str) :
    (copyToNL (c :: rest)).2.length ≤ rest.length := by
  have h := congrArg List.length (copyToNL_append_snd (c :: rest))
  rw [List.length_append, List.length_cons] at h
  by_cases hc : c = '\n'
  · simp [copyToNL, hc]
  · have h1 : (copyToNL (c :: rest)).1.length ≥ 1 := by
      simp only [copyToNL, if_neg hc]
      simp
    omega

theorem copyToNL_no_nl : ∀ cs : Str, '\n' ∉ cs → copyToNL cs = (cs, []) := by
  intro cs
  induction cs with
  | nil => intro _; rfl
  | cons c rest ih =>
    intro h
    have hc : c ≠ '\n' := fun he => h (he ▸ List.mem_cons_self _ _)
    have hr : '\n' ∉ rest := fun hm => h (List.mem_cons_of_mem _ hm)
    simp [copyToNL, if_neg hc, ih hr]

theorem copyToNL_split : ∀ (pre z : Str), '\n' ∉ pre →
    copyToNL (pre ++ '\n' :: z) = (pre ++ ['\n'], z) := by
  intro pre
  induction pre with
  | nil => intro z _; simp [copyToNL]
  | cons c pre' ih =>
    intro z h
    have hc : c ≠ '\n' := fun he => h (he ▸ List.mem_cons_self _ _)
    have hr : '\n' ∉ pre' := fun hm => h (List.mem_cons_of_mem _ hm)
    simp [copyToNL, if_neg hc, ih z hr]

theorem exists_nl_decomp : ∀ cs : Str,
    '\n' ∉ cs ∨ ∃ pre z, '\n' ∉ pre ∧ cs = pre ++ '\n' :: z := by
  intro cs
  induction cs with
  | nil => exact Or.inl (by simp)
  | cons c rest ih =>
    by_cases hc : c = '\n'
    · subst hc
      exact Or.inr ⟨[], rest, by simp, rfl⟩
    · rcases ih with h | ⟨pre, z, hnp, rfl⟩
      · refine Or.inl ?_
        intro hm
        rcases List.mem_cons.mp hm with h2 | h2
        · exact hc h2.symm
        · exact h h2
      · refine Or.inr ⟨c :: pre, z, ?_, rfl⟩
        intro hm
        rcases List.mem_cons.mp hm with h2 | h2
        · exact hc h2.symm
        · exact hnp h2

theorem key_no_nl : '\n' ∉ key := by decide

theorem key_length : key.length = 11 := by decide

theorem isPrefixOf_append_nl : ∀ (k pre z : Str), '\n' ∉ k → '\n' ∉ pre →
    k.isPrefixOf (pre ++ '\n' :: z) = k.isPrefixOf pre := by
  intro k
  induction k with
  | nil => intro pre z _ _; cases pre <;> rfl
  | cons a k' ih =>
    intro pre z hk hp
    have ha : a ≠ '\n' := fun he => hk (he ▸ List.mem_cons_self _ _)
    have hk' : '\n' ∉ k' := fun hm => hk (List.mem_cons_of_mem _ hm)
    cases pre with
    | nil =>
      simp [List.isPrefixOf, beq_iff_eq, ha]
    | cons b pre' =>
      have hp' : '\n' ∉ pre' := fun hm => hp (List.mem_cons_of_mem _ hm)
      simp only [List.cons_append, List.isPrefixOf, List.append_eq]
      rw [ih pre' z hk' hp']

theorem dropWhile_length_le {α : Type} (p : α → Bool) :
    ∀ l : List α, (l.dropWhile p).length ≤ l.length := by
  intro l
  induction l with
  | nil => simp
  | cons c rest ih =>
    rw [List.dropWhile_cons]
    by_cases h : p c = true
    · simp only [if_pos h]
      calc (List.dropWhile p rest).length ≤ rest.length := ih
        _ ≤ (c :: rest).length := by simp
    · simp [h]

theorem matchAt_some_length (cs t : Str) (h : matchAt cs = some t) :
    t.length < cs.length := by
  unfold matchAt at h
  by_cases hp : key.isPrefixOf cs
  · rw [if_pos hp] at h
    have hlen : key.length ≤ cs.length := (List.isPrefixOf_iff_prefix.mp hp).length_le
    rw [key_length] at hlen
    cases hd : dropWS (cs.drop key.length) with
    | nil => simp [hd] at h
    | cons c rest =>
      simp only [hd] at h
      by_cases hc : c = '='
      · rw [if_pos hc] at h
        injection h with h
        have h1 : (dropWS (cs.drop key.length)).length ≤ (cs.drop key.length).length :=
          dropWhile_length_le _ _
        rw [hd, List.length_cons, List.length_drop, key_length] at h1
        have h2 : (dropWS rest).length ≤ rest.length := dropWhile_length_le _ _
        have h3 : (dropNonNL (dropWS rest)).length ≤ (dropWS rest).length :=
          dropWhile_length_le _ _
        rw [← h]
        omega
      · rw [if_neg hc] at h
        simp at h
  · rw [if_neg hp] at h
    simp at h

theorem matchAt_some_head (cs : Str) (c : Char) (t2 : Str)
    (h : matchAt cs = some (c :: t2)) : c = '\n' := by
  unfold matchAt at h
  by_cases hp : key.isPrefixOf cs
  · rw [if_pos hp] at h
    cases hd : dropWS (cs.drop key.length) with
    | nil => simp [hd] at h
    | cons c0 rest =>
      simp only [hd] at h
      by_cases hc : c0 = '='
      · rw [if_pos hc] at h
        injection h with h
        have hw := List.head?_dropWhile_not (fun c => decide (c ≠ '\n')) (dropWS rest)
        rw [show (dropWS rest).dropWhile (fun c => decide (c ≠ '\n')) =
          dropNonNL (dropWS rest) from rfl, h] at hw
        simpa using hw
      · rw [if_neg hc] at h
        simp at h
  · rw [if_neg hp] at h
    simp at h

theorem subScanF_fuel (r : Str) :
    ∀ (f1 f2 : Nat) (cs : Str), cs.length ≤ f1 → cs.length ≤ f2 →
      subScanF r f1 cs = subScanF r f2 cs := by
  intro f1
  induction f1 with
  | zero =>
    intro f2 cs h1 _
    have h0 : cs = [] := List.length_eq_zero.mp (Nat.le_zero.mp h1)
    subst h0
    cases f2 <;> rfl
  | succ f ih =>
    intro f2 cs h1 h2
    cases cs with
    | nil => cases f2 <;> rfl
    | cons c rest =>
      cases f2 with
      | zero => simp at h2
      | succ g =>
        unfold subScanF
        cases hm : matchAt (c :: rest) with
        | some t =>
          simp only [hm]
          cases t with
          | nil => rfl
          | cons c2 t2 =>
            have hlt := matchAt_some_length _ _ hm
            simp only [List.length_cons] at hlt h1 h2
            show r ++ (c2 :: subScanF r f t2) = r ++ (c2 :: subScanF r g t2)
            rw [ih g t2 (by omega) (by omega)]
        | none =>
          simp only [hm]
          have hle := copyToNL_snd_length c rest
          simp only [List.length_cons] at h1 h2
          congr 1
          exact ih g _ (by omega) (by omega)

theorem subScan_cons (r : Str) (c : Char) (rest : Str) :
    subScan r (c :: rest) =
      match matchAt (c :: rest) with
      | some t => r ++ (match t with
          | [] => []
          | c2 :: t2 => c2 :: subScan r t2)
      | none => (copyToNL (c :: rest)).1 ++ subScan r (copyToNL (c :: rest)).2 := by
  show subScanF r (c :: rest).length (c :: rest) = _
  rw [List.length_cons]
  unfold subScanF
  cases hm : matchAt (c :: rest) with
  | some t =>
    simp only [hm]
    cases t with
    | nil => rfl
    | cons c2 t2 =>
      have hlt := matchAt_some_length _ _ hm
      simp only [List.length_cons] at hlt
      show r ++ (c2 :: subScanF r rest.length t2) = r ++ (c2 :: subScan r t2)
      rw [subScanF_fuel r rest.length t2.length t2 (by omega) (le_refl _)]
      rfl
  | none =>
    simp only [hm]
    have hle := copyToNL_snd_length c rest
    show (copyToNL (c :: rest)).1 ++ subScanF r rest.length (copyToNL (c :: rest)).2 =
      (copyToNL (c :: rest)).1 ++ subScan r (copyToNL (c :: rest)).2
    rw [subScanF_fuel r rest.length ((copyToNL (c :: rest)).2.length) _ (by omega) (le_refl _)]
    rfl

theorem hasMatchF_fuel :
    ∀ (f1 f2 : Nat) (cs : Str), cs.length ≤ f1 → cs.length ≤ f2 →
      hasMatchF f1 cs = hasMatchF f2 cs := by
  intro f1
  induction f1 with
  | zero =>
    intro f2 cs h1 _
    have h0 : cs = [] := List.length_eq_zero.mp (Nat.le_zero.mp h1)
    subst h0
    cases f2 <;> rfl
  | succ f ih =>
    intro f2 cs h1 h2
    cases cs with
    | nil => cases f2 <;> rfl
    | cons c rest =>
      cases f2 with
      | zero => simp at h2
      | succ g =>
        unfold hasMatchF
        cases hm : matchAt (c :: rest) with
        | some t => simp only [hm]
        | none =>
          simp only [hm]
          have hle := copyToNL_snd_length c rest
          simp only [List.length_cons] at h1 h2
          exact ih g _ (by omega) (by omega)

theorem hasMatch_cons (c : Char) (rest : Str) :
    hasMatch (c :: rest) =
      match matchAt (c :: rest) with
      | some _ => true
      | none => hasMatch (copyToNL (c :: rest)).2 := by
  show hasMatchF (c :: rest).length (c :: rest) = _
  rw [List.length_cons]
  unfold hasMatchF
  cases hm : matchAt (c :: rest) with
  | some t => simp only [hm]
  | none =>
    simp only [hm]
    have hle := copyToNL_snd_length c rest
    exact hasMatchF_fuel _ _ _ (by omega) (le_refl _)

theorem matchAt_none_iff (cs : Str) :
    matchAt cs = none ↔
      (key.isPrefixOf cs = false ∨ (dropWS (cs.drop key.length)).head? ≠ some '=') := by
  unfold matchAt
  by_cases hp : key.isPrefixOf cs
  · rw [if_pos hp]
    cases hd : dropWS (cs.drop key.length) with
    | nil => simp [hp, hd]
    | cons c rest =>
      by_cases hc : c = '='
      · subst hc
        simp [hp, hd]
      · simp [hp, hd, hc]
  · rw [if_neg hp]
    simp only [Bool.not_eq_true] at hp
    simp [hp]

theorem head?_dropWS_append_of_some (a b : Str) (c : Char)
    (h : (dropWS a).head? = some c) : (dropWS (a ++ b)).head? = some c := by
  unfold dropWS at h ⊢
  rw [List.dropWhile_append]
  cases hd : List.dropWhile isPySpace a with
  | nil => rw [hd] at h; cases h
  | cons c0 rest =>
    rw [hd] at h
    simp only [List.isEmpty_cons, if_false]
    simp only [List.head?_cons] at h
    simp [h]

theorem head?_dropWS_append_of_none (a b : Str)
    (h : (dropWS a).head? = none) : (dropWS (a ++ b)).head? = (dropWS b).head? := by
  unfold dropWS at h ⊢
  rw [List.dropWhile_append]
  cases hd : List.dropWhile isPySpace a with
  | nil => simp
  | cons c0 rest => rw [hd] at h; cases h

theorem dropWS_cons_nl (x : Str) : dropWS ('\n' :: x) = dropWS x := by
  unfold dropWS
  rw [List.dropWhile_cons_of_pos (by decide)]

theorem drop_key_append (pre : Str) (x : Str) (hlen : key.length ≤ pre.length) :
    (pre ++ x).drop key.length = pre.drop key.length ++ x := by
  rw [List.drop_append_eq_append_drop, Nat.sub_eq_zero_of_le hlen, List.drop_zero]

theorem prefix_key_length {pre : Str} (hpp : key.isPrefixOf pre = true) :
    key.length ≤ pre.length :=
  (List.isPrefixOf_iff_prefix.mp hpp).length_le

/-- Transfer of a failed match across a change of the text after the current
line: the match can only inspect the later text through the whitespace run
after `=`, so the head of `dropWS` of the tail decides everything. -/
theorem matchAt_none_transfer (pre a b : Str) (hpre : '\n' ∉ pre)
    (hsome : ∀ c, (dropWS a).head? = some c → (dropWS b).head? = some c)
    (hnone : (dropWS a).head? = none → (dropWS b).head? ≠ some '=')
    (h : matchAt (pre ++ '\n' :: a) = none) :
    matchAt (pre ++ '\n' :: b) = none := by
  rw [matchAt_none_iff] at h ⊢
  have hpfxa : key.isPrefixOf (pre ++ '\n' :: a) = key.isPrefixOf pre :=
    isPrefixOf_append_nl _ _ _ key_no_nl hpre
  have hpfxb : key.isPrefixOf (pre ++ '\n' :: b) = key.isPrefixOf pre :=
    isPrefixOf_append_nl _ _ _ key_no_nl hpre
  rcases h with h | h
  · left
    rw [hpfxb, ← hpfxa, h]
  · by_cases hp : key.isPrefixOf pre = true
    · right
      have hlen := prefix_key_length hp
      rw [drop_key_append pre ('\n' :: a) hlen] at h
      rw [drop_key_append pre ('\n' :: b) hlen]
      cases hq : (dropWS (pre.drop key.length)).head? with
      | some c =>
        rw [head?_dropWS_append_of_some _ _ c hq] at h
        rw [head?_dropWS_append_of_some _ _ c hq]
        exact h
      | none =>
        rw [head?_dropWS_append_of_none _ _ hq, dropWS_cons_nl] at h
        rw [head?_dropWS_append_of_none _ _ hq, dropWS_cons_nl]
        cases ha : (dropWS a).head? with
        | some c =>
          rw [hsome c ha]
          rw [ha] at h
          exact h
        | none => exact hnone ha
    · left
      simp only [Bool.not_eq_true] at hp
      rw [hpfxb, hp]

/-- Transfer of a failed match from a newline-free text to that text with
more lines appended, provided the appended part cannot supply the `=`. -/
theorem matchAt_none_extend (u w : Str) (hu : '\n' ∉ u)
    (hw : (dropWS w).head? ≠ some '=')
    (h : matchAt u = none) : matchAt (u ++ '\n' :: w) = none := by
  rw [matchAt_none_iff] at h ⊢
  have hpfx : key.isPrefixOf (u ++ '\n' :: w) = key.isPrefixOf u :=
    isPrefixOf_append_nl _ _ _ key_no_nl hu
  rcases h with h | h
  · left
    rw [hpfx, h]
  · by_cases hp : key.isPrefixOf u = true
    · right
      have hlen := prefix_key_length hp
      rw [drop_key_append u ('\n' :: w) hlen]
      cases hq : (dropWS (u.drop key.length)).head? with
      | some c =>
        rw [head?_dropWS_append_of_some _ _ c hq]
        rw [hq] at h
        exact h
      | none =>
        rw [head?_dropWS_append_of_none _ _ hq, dropWS_cons_nl]
        exact hw
    · left
      simp only [Bool.not_eq_true] at hp
      rw [hpfx, hp]

theorem mem_of_mem_dropWhile {α : Type} (p : α → Bool) :
    ∀ (l : List α) (c : α), c ∈ l.dropWhile p → c ∈ l := by
  intro l
  induction l with
  | nil => intro c h; simp at h
  | cons x xs ih =>
    intro c h
    rw [List.dropWhile_cons] at h
    by_cases hx : p x = true
    · rw [if_pos hx] at h
      exact List.mem_cons_of_mem _ (ih c h)
    · rw [if_neg hx] at h
      exact h

theorem dropWhile_ne_nil_of_exists {α : Type} (p : α → Bool) :
    ∀ l : List α, (∃ c ∈ l, p c = false) → l.dropWhile p ≠ [] := by
  intro l
  induction l with
  | nil => rintro ⟨c, hc, _⟩; simp at hc
  | cons x xs ih =>
    rintro ⟨c, hc, hpc⟩
    rw [List.dropWhile_cons]
    by_cases hx : p x = true
    · rw [if_pos hx]
      refine ih ⟨c, ?_, hpc⟩
      rcases List.mem_cons.mp hc with rfl | h
      · rw [hx] at hpc; cases hpc
      · exact h
    · rw [if_neg hx]
      simp

theorem dropWS_append_stop (a b : Str) (ha : dropWS a ≠ []) :
    dropWS (a ++ b) = dropWS a ++ b := by
  unfold dropWS at ha ⊢
  rw [List.dropWhile_append]
  rw [if_neg (by simpa using ha)]

theorem getLast?_some_mem {α : Type} :
    ∀ (l : List α) (a : α), l.getLast? = some a → a ∈ l := by
  intro l
  induction l with
  | nil => intro a h; cases h
  | cons x xs ih =>
    intro a h
    cases xs with
    | nil =>
      simp only [List.getLast?_singleton] at h
      injection h with h
      simp [h]
    | cons y ys =>
      rw [List.getLast?_cons_cons] at h
      exact List.mem_cons_of_mem _ (ih a h)

theorem getLast?_append_ne_nil {α : Type} (a : List α) :
    ∀ b : List α, b ≠ [] → (a ++ b).getLast? = b.getLast? := by
  induction a with
  | nil => intro b _; rfl
  | cons x xs ih =>
    intro b hb
    rw [List.cons_append]
    have hne : xs ++ b ≠ [] := by
      intro h
      exact hb (List.append_eq_nil.mp h).2
    obtain ⟨y, ys, hy⟩ := List.exists_cons_of_ne_nil hne
    rw [hy, List.getLast?_cons_cons, ← hy]
    exact ih b hb

theorem newConfigLine_eq (display_id : Str) :
    newConfigLine display_id = key ++ ' ' :: '=' :: ' ' :: display_id := rfl

theorem newConfigLine_cons (display_id : Str) :
    newConfigLine display_id = 'o' :: ("utput_name = ".toList ++ display_id) := rfl

theorem dropNonNL_skip_append (y tail : Str) (hy : '\n' ∉ y)
    (htail : tail = [] ∨ ∃ t2, tail = '\n' :: t2) :
    dropNonNL (y ++ tail) = tail := by
  unfold dropNonNL
  rw [List.dropWhile_append_of_pos
    (fun c hc => by simp only [decide_eq_true_eq]; exact fun he => hy (he ▸ hc))]
  rcases htail with rfl | ⟨t2, rfl⟩
  · rfl
  · exact List.dropWhile_cons_of_neg (by simp)

/-- The replacement line itself matches the pattern, and greedy matching stops
exactly at the end of the line: the text after the replacement line is
returned untouched.  Needs the id to contain no newline (else `.*` would stop
inside it) and at least one non-whitespace character (else the whitespace run
after `=` would swallow the newline). -/
theorem matchAt_newConfigLine (display_id tail : Str) (hid_nl : '\n' ∉ display_id)
    (hid_ws : ∃ c ∈ display_id, isPySpace c = false)
    (htail : tail = [] ∨ ∃ t2, tail = '\n' :: t2) :
    matchAt (newConfigLine display_id ++ tail) = some tail := by
  have hdecomp : newConfigLine display_id ++ tail =
      key ++ (' ' :: '=' :: ' ' :: (display_id ++ tail)) := by
    rw [newConfigLine_eq, List.append_assoc]
    rfl
  rw [hdecomp]
  unfold matchAt
  rw [if_pos (List.isPrefixOf_iff_prefix.mpr (List.prefix_append _ _))]
  rw [List.drop_left]
  have hws : dropWS (' ' :: '=' :: ' ' :: (display_id ++ tail)) =
      '=' :: (' ' :: (display_id ++ tail)) := by
    unfold dropWS
    rw [List.dropWhile_cons_of_pos (by decide), List.dropWhile_cons_of_neg (by decide)]
  simp only [hws, if_true]
  congr 1
  have hws2 : dropWS (' ' :: (display_id ++ tail)) = dropWS (display_id ++ tail) := by
    unfold dropWS
    rw [List.dropWhile_cons_of_pos (by decide)]
  rw [hws2]
  have hne : dropWS display_id ≠ [] := dropWhile_ne_nil_of_exists _ _ hid_ws
  rw [dropWS_append_stop _ _ hne]
  refine dropNonNL_skip_append _ _ ?_ htail
  intro hmem
  exact hid_nl (mem_of_mem_dropWhile _ _ _ hmem)

/-- A safe `output_name`-initial line matches, and greedy matching stops at
the end of the line. -/
theorem matchAt_safe_line (l tail : Str) (hl : '\n' ∉ l) (hk : keyLineB l = true)
    (hs : safeLineB l = true) (htail : tail = [] ∨ ∃ t2, tail = '\n' :: t2) :
    matchAt (l ++ tail) = some tail := by
  obtain ⟨q, hq⟩ := List.isPrefixOf_iff_prefix.mp hk
  have hql : l = key ++ q := hq.symm
  subst hql
  unfold safeLineB at hs
  rw [List.drop_left] at hs
  cases hd : dropWS q with
  | nil => rw [hd] at hs; cases hs
  | cons c rest =>
    rw [hd] at hs
    simp only [Bool.and_eq_true, decide_eq_true_eq, Bool.not_eq_true'] at hs
    obtain ⟨hceq, hrest0⟩ := hs
    subst hceq
    have hrest : dropWS rest ≠ [] := by
      intro h
      rw [h] at hrest0
      simp at hrest0
    unfold matchAt
    rw [List.append_assoc]
    rw [if_pos (List.isPrefixOf_iff_prefix.mpr (List.prefix_append _ _))]
    rw [List.drop_left]
    have hqne : dropWS q ≠ [] := by rw [hd]; simp
    have hws : dropWS (q ++ tail) = '=' :: (rest ++ tail) := by
      rw [dropWS_append_stop _ _ hqne, hd, List.cons_append]
    simp only [hws, if_true]
    congr 1
    rw [dropWS_append_stop _ _ hrest]
    refine dropNonNL_skip_append _ _ ?_ htail
    intro hmem
    have h1 : '\n' ∈ rest := mem_of_mem_dropWhile _ _ _ hmem
    have h2 : '\n' ∈ dropWS q := by rw [hd]; exact List.mem_cons_of_mem _ h1
    have h3 : '\n' ∈ q := mem_of_mem_dropWhile _ _ _ h2
    exact hl (List.mem_append_right _ h3)

/-- A line that does not begin with `output_name` starts no match. -/
theorem matchAt_nonkey_line (l tail : Str) (hl : '\n' ∉ l) (hk : keyLineB l = false)
    (htail : tail = [] ∨ ∃ t2, tail = '\n' :: t2) :
    matchAt (l ++ tail) = none := by
  rw [matchAt_none_iff]
  left
  rcases htail with rfl | ⟨t2, rfl⟩
  · rw [List.append_nil]
    exact hk
  · rw [isPrefixOf_append_nl _ _ _ key_no_nl hl]
    exact hk

theorem subScan_step (r cs : Str) (h : cs ≠ []) :
    subScan r cs =
      match matchAt cs with
      | some t => r ++ (match t with
          | [] => []
          | c2 :: t2 => c2 :: subScan r t2)
      | none => (copyToNL cs).1 ++ subScan r (copyToNL cs).2 := by
  obtain ⟨c, rest, rfl⟩ := List.exists_cons_of_ne_nil h
  exact subScan_cons r c rest

theorem hasMatch_step (cs : Str) (h : cs ≠ []) :
    hasMatch cs =
      match matchAt cs with
      | some _ => true
      | none => hasMatch (copyToNL cs).2 := by
  obtain ⟨c, rest, rfl⟩ := List.exists_cons_of_ne_nil h
  exact hasMatch_cons c rest

theorem matchAt_some_key_decomp (cs t : Str) (h : matchAt cs = some t) :
    ∃ s, cs = key ++ s := by
  unfold matchAt at h
  by_cases hp : key.isPrefixOf cs
  · obtain ⟨s, hs⟩ := List.isPrefixOf_iff_prefix.mp hp
    exact ⟨s, hs.symm⟩
  · rw [if_neg hp] at h
    cases h

/-- Substitution with a replacement line that starts with the same head
character `o` as any match preserves the head of the whitespace-stripped
text — the fact that lets a failed match stay failed after substitution
downstream. -/
theorem head?_dropWS_subScan (r : Str) (hr : ∃ r2, r = 'o' :: r2) :
    ∀ (n : Nat) (x : Str), x.length ≤ n →
      (dropWS (subScan r x)).head? = (dropWS x).head? := by
  obtain ⟨r2, hr2⟩ := hr
  intro n
  induction n with
  | zero =>
    intro x hx
    have h0 : x = [] := List.length_eq_zero.mp (Nat.le_zero.mp hx)
    subst h0
    rfl
  | succ n ih =>
    intro x hx
    cases x with
    | nil => rfl
    | cons c rest =>
      rw [subScan_cons]
      cases hm : matchAt (c :: rest) with
      | some t =>
        obtain ⟨s, hcs⟩ := matchAt_some_key_decomp _ _ hm
        have hc : c = 'o' := by
          have := congrArg List.head? hcs
          simpa [key] using this
        subst hc
        have hod : isPySpace 'o' = false := by decide
        rw [hr2]
        show (dropWS ('o' :: (r2 ++ _))).head? = (dropWS ('o' :: rest)).head?
        unfold dropWS
        rw [List.dropWhile_cons_of_neg (by simp [hod]),
          List.dropWhile_cons_of_neg (by simp [hod])]
        rfl
      | none =>
        rcases exists_nl_decomp (c :: rest) with hno | ⟨pre, z, hnp, heq⟩
        · rw [copyToNL_no_nl _ hno]
          show (dropWS ((c :: rest) ++ subScan r [])).head? = _
          rw [show subScan r [] = [] from rfl, List.append_nil]
        · rw [heq, copyToNL_split _ _ hnp]
          have hlen : z.length ≤ n := by
            have := congrArg List.length heq
            simp only [List.length_cons, List.length_append] at this
            simp only [List.length_cons] at hx
            omega
          show (dropWS ((pre ++ ['\n']) ++ subScan r z)).head? = (dropWS (pre ++ '\n' :: z)).head?
          rw [List.append_assoc]
          show (dropWS (pre ++ '\n' :: subScan r z)).head? = _
          cases hq : (dropWS pre).head? with
          | some c0 =>
            rw [head?_dropWS_append_of_some _ _ c0 hq,
              head?_dropWS_append_of_some _ _ c0 hq]
          | none =>
            rw [head?_dropWS_append_of_none _ _ hq, head?_dropWS_append_of_none _ _ hq,
              dropWS_cons_nl, dropWS_cons_nl]
            exact ih z hlen

theorem getLast?_append_singleton {α : Type} (l : List α) (a : α) :
    (l ++ [a]).getLast? = some a := by
  rw [getLast?_append_ne_nil l [a] (by simp)]
  rfl

theorem newConfigLine_ne_nil (did : Str) : newConfigLine did ≠ [] := by
  rw [newConfigLine_cons]
  simp

theorem head?_dropWS_newConfigLine (did tail : Str) :
    (dropWS (newConfigLine did ++ tail)).head? = some 'o' := by
  rw [newConfigLine_cons, List.cons_append]
  unfold dropWS
  rw [List.dropWhile_cons_of_neg (by decide)]
  rfl

/-- The whole-text substitution is a projection: applying it twice equals
applying it once, for a replacement line built from a newline-free id with at
least one non-whitespace character. -/
theorem subScan_newLine_fixpoint (did : Str) (h1 : '\n' ∉ did)
    (h2 : ∃ c ∈ did, isPySpace c = false) :
    ∀ (n : Nat) (cs : Str), cs.length ≤ n →
      subScan (newConfigLine did) (subScan (newConfigLine did) cs) =
        subScan (newConfigLine did) cs := by
  intro n
  induction n with
  | zero =>
    intro cs h
    have h0 : cs = [] := List.length_eq_zero.mp (Nat.le_zero.mp h)
    subst h0
    rfl
  | succ n ih =>
    intro cs hlen
    cases cs with
    | nil => rfl
    | cons c rest =>
      rw [subScan_cons (newConfigLine did) c rest]
      cases hm : matchAt (c :: rest) with
      | some t =>
        cases t with
        | nil =>
          show subScan (newConfigLine did) (newConfigLine did ++ []) = newConfigLine did ++ []
          rw [List.append_nil]
          have hmr : matchAt (newConfigLine did) = some [] := by
            have := matchAt_newConfigLine did [] h1 h2 (Or.inl rfl)
            rwa [List.append_nil] at this
          rw [subScan_step _ _ (newConfigLine_ne_nil did)]
          simp only [hmr]
          simp
        | cons c2 t2 =>
          have hc2 : c2 = '\n' := matchAt_some_head _ _ _ hm
          subst hc2
          show subScan (newConfigLine did) (newConfigLine did ++ '\n' ::
              subScan (newConfigLine did) t2) =
            newConfigLine did ++ '\n' :: subScan (newConfigLine did) t2
          have hlt := matchAt_some_length _ _ hm
          simp only [List.length_cons] at hlt hlen
          have ht2 : t2.length ≤ n := by omega
          have hZ := ih t2 ht2
          have hmm : matchAt (newConfigLine did ++ '\n' :: subScan (newConfigLine did) t2) =
              some ('\n' :: subScan (newConfigLine did) t2) :=
            matchAt_newConfigLine did _ h1 h2 (Or.inr ⟨_, rfl⟩)
          rw [subScan_step _ _ (by simp [newConfigLine_ne_nil did])]
          simp only [hmm]
          rw [hZ]
      | none =>
        rcases exists_nl_decomp (c :: rest) with hno | ⟨pre, z, hnp, heq⟩
        · rw [copyToNL_no_nl _ hno]
          show subScan (newConfigLine did) ((c :: rest) ++ subScan (newConfigLine did) []) =
            (c :: rest) ++ subScan (newConfigLine did) []
          rw [show subScan (newConfigLine did) [] = [] from rfl, List.append_nil]
          rw [subScan_cons (newConfigLine did) c rest]
          simp only [hm]
          rw [copyToNL_no_nl _ hno]
          show (c :: rest) ++ subScan (newConfigLine did) [] = c :: rest
          rw [show subScan (newConfigLine did) [] = [] from rfl, List.append_nil]
        · have hz : z.length ≤ n := by
            have := congrArg List.length heq
            simp only [List.length_cons, List.length_append] at this
            simp only [List.length_cons] at hlen
            omega
          rw [heq] at hm
          rw [heq, copyToNL_split _ _ hnp]
          have hM2 := head?_dropWS_subScan (newConfigLine did) ⟨_, newConfigLine_cons did⟩
            z.length z (le_refl _)
          have hZ := ih z hz
          have hnone_new : matchAt (pre ++ '\n' :: subScan (newConfigLine did) z) = none := by
            refine matchAt_none_transfer pre z _ hnp ?_ ?_ hm
            · intro c0 hc0
              rw [hM2]
              exact hc0
            · intro h0
              rw [hM2, h0]
              simp
          show subScan (newConfigLine did) ((pre ++ ['\n']) ++ subScan (newConfigLine did) z) =
            (pre ++ ['\n']) ++ subScan (newConfigLine did) z
          rw [List.append_assoc]
          show subScan (newConfigLine did) (pre ++ '\n' :: subScan (newConfigLine did) z) =
            pre ++ '\n' :: subScan (newConfigLine did) z
          rw [subScan_step _ _ (by simp)]
          simp only [hnone_new]
          rw [copyToNL_split _ _ hnp, hZ, List.append_assoc]
          rfl

/-- Substitution preserves the existence of a match. -/
theorem hasMatch_subScan_true (did : Str) (h1 : '\n' ∉ did)
    (h2 : ∃ c ∈ did, isPySpace c = false) :
    ∀ (n : Nat) (cs : Str), cs.length ≤ n → hasMatch cs = true →
      hasMatch (subScan (newConfigLine did) cs) = true := by
  intro n
  induction n with
  | zero =>
    intro cs h htrue
    have h0 : cs = [] := List.length_eq_zero.mp (Nat.le_zero.mp h)
    subst h0
    cases htrue
  | succ n ih =>
    intro cs hlen htrue
    cases cs with
    | nil => cases htrue
    | cons c rest =>
      rw [subScan_cons (newConfigLine did) c rest]
      cases hm : matchAt (c :: rest) with
      | some t =>
        cases t with
        | nil =>
          show hasMatch (newConfigLine did ++ []) = true
          rw [hasMatch_step _ (by simp [newConfigLine_ne_nil did])]
          rw [matchAt_newConfigLine did [] h1 h2 (Or.inl rfl)]
        | cons c2 t2 =>
          have hc2 : c2 = '\n' := matchAt_some_head _ _ _ hm
          subst hc2
          show hasMatch (newConfigLine did ++ '\n' ::
            subScan (newConfigLine did) t2) = true
          rw [hasMatch_step _ (by simp [newConfigLine_ne_nil did])]
          rw [matchAt_newConfigLine did _ h1 h2 (Or.inr ⟨_, rfl⟩)]
      | none =>
        rw [hasMatch_cons c rest] at htrue
        simp only [hm] at htrue
        rcases exists_nl_decomp (c :: rest) with hno | ⟨pre, z, hnp, heq⟩
        · rw [copyToNL_no_nl _ hno] at htrue
          rw [show hasMatch ([] : Str) = false from rfl] at htrue
          cases htrue
        · have hz : z.length ≤ n := by
            have := congrArg List.length heq
            simp only [List.length_cons, List.length_append] at this
            simp only [List.length_cons] at hlen
            omega
          rw [heq, copyToNL_split _ _ hnp] at htrue
          rw [heq] at hm
          rw [heq, copyToNL_split _ _ hnp]
          have hM2 := head?_dropWS_subScan (newConfigLine did) ⟨_, newConfigLine_cons did⟩
            z.length z (le_refl _)
          have hnone_new : matchAt (pre ++ '\n' :: subScan (newConfigLine did) z) = none := by
            refine matchAt_none_transfer pre z _ hnp ?_ ?_ hm
            · intro c0 hc0
              rw [hM2]
              exact hc0
            · intro h0
              rw [hM2, h0]
              simp
          show hasMatch ((pre ++ ['\n']) ++ subScan (newConfigLine did) z) = true
          rw [List.append_assoc]
          show hasMatch (pre ++ '\n' :: subScan (newConfigLine did) z) = true
          rw [hasMatch_step _ (by simp)]
          simp only [hnone_new]
          rw [copyToNL_split _ _ hnp]
          exact ih z hz htrue

/-- Appending the final newline to a matchless content cannot create a match. -/
theorem hasMatch_concat_nl :
    ∀ (n : Nat) (u : Str), u.length ≤ n → hasMatch u = false →
      hasMatch (u ++ ['\n']) = false := by
  intro n
  induction n with
  | zero =>
    intro u h _
    have h0 : u = [] := List.length_eq_zero.mp (Nat.le_zero.mp h)
    subst h0
    decide
  | succ n ih =>
    intro u hlen hfalse
    cases u with
    | nil => decide
    | cons c rest =>
      rw [hasMatch_cons c rest] at hfalse
      cases hm : matchAt (c :: rest) with
      | some t => simp [hm] at hfalse
      | none =>
        simp only [hm] at hfalse
        rcases exists_nl_decomp (c :: rest) with hno | ⟨pre, z, hnp, heq⟩
        · have hnone : matchAt ((c :: rest) ++ '\n' :: []) = none :=
            matchAt_none_extend _ _ hno (by decide) hm
          rw [hasMatch_step _ (by simp)]
          simp only [show ((c :: rest) ++ ['\n'] : Str) = (c :: rest) ++ '\n' :: [] from rfl,
            hnone]
          rw [copyToNL_split _ _ hno]
          rfl
        · have hz : z.length ≤ n := by
            have := congrArg List.length heq
            simp only [List.length_cons, List.length_append] at this
            simp only [List.length_cons] at hlen
            omega
          rw [heq, copyToNL_split _ _ hnp] at hfalse
          rw [heq] at hm
          have hnone : matchAt (pre ++ '\n' :: (z ++ ['\n'])) = none := by
            refine matchAt_none_transfer pre z _ hnp ?_ ?_ hm
            · intro c0 hc0
              exact head?_dropWS_append_of_some _ _ c0 hc0
            · intro h0
              rw [head?_dropWS_append_of_none _ _ h0]
              decide
          rw [heq]
          rw [show (pre ++ '\n' :: z) ++ ['\n'] = pre ++ '\n' :: (z ++ ['\n']) from by
            rw [List.append_assoc]; rfl]
          rw [hasMatch_step _ (by simp)]
          simp only [hnone]
          rw [copyToNL_split _ _ hnp]
          exact ih z hz hfalse

/-- The append path writes a text that the substitution maps to itself, and
that now contains a match. -/
theorem append_tail_fixpoint (did : Str) (h1 : '\n' ∉ did)
    (h2 : ∃ c ∈ did, isPySpace c = false) :
    ∀ (n : Nat) (u : Str), u.length ≤ n → hasMatch u = false →
      (u = [] ∨ u.getLast? = some '\n') →
      subScan (newConfigLine did) (u ++ (newConfigLine did ++ ['\n'])) =
        u ++ (newConfigLine did ++ ['\n']) ∧
      hasMatch (u ++ (newConfigLine did ++ ['\n'])) = true := by
  intro n
  induction n with
  | zero =>
    intro u h _ _
    have h0 : u = [] := List.length_eq_zero.mp (Nat.le_zero.mp h)
    subst h0
    rw [List.nil_append]
    have hmr : matchAt (newConfigLine did ++ ['\n']) = some ['\n'] :=
      matchAt_newConfigLine did _ h1 h2 (Or.inr ⟨_, rfl⟩)
    constructor
    · rw [subScan_step _ _ (by simp [newConfigLine_ne_nil did])]
      simp only [hmr]
      rfl
    · rw [hasMatch_step _ (by simp [newConfigLine_ne_nil did])]
      simp only [hmr]
  | succ n ih =>
    intro u hlen hfalse hends
    cases hu : u with
    | nil =>
      subst hu
      rw [List.nil_append]
      have hmr : matchAt (newConfigLine did ++ ['\n']) = some ['\n'] :=
        matchAt_newConfigLine did _ h1 h2 (Or.inr ⟨_, rfl⟩)
      constructor
      · rw [subScan_step _ _ (by simp [newConfigLine_ne_nil did])]
        simp only [hmr]
        rfl
      · rw [hasMatch_step _ (by simp [newConfigLine_ne_nil did])]
        simp only [hmr]
    | cons c rest =>
      subst hu
      have hend : (c :: rest).getLast? = some '\n' := by
        rcases hends with h0 | h0
        · cases h0
        · exact h0
      rcases exists_nl_decomp (c :: rest) with hno | ⟨pre, z, hnp, heq⟩
      · exact absurd (getLast?_some_mem _ _ hend) hno
      · rw [hasMatch_step _ (by simp)] at hfalse
        cases hm : matchAt (c :: rest) with
        | some t => simp [hm] at hfalse
        | none =>
          simp only [hm] at hfalse
          rw [heq, copyToNL_split _ _ hnp] at hfalse
          have hz : z.length ≤ n := by
            have := congrArg List.length heq
            simp only [List.length_cons, List.length_append] at this
            simp only [List.length_cons] at hlen
            omega
          have hzend : z = [] ∨ z.getLast? = some '\n' := by
            by_cases hz0 : z = []
            · exact Or.inl hz0
            · right
              have h4 : (pre ++ '\n' :: z).getLast? = some '\n' := heq ▸ hend
              rw [show (pre ++ '\n' :: z : Str) = (pre ++ ['\n']) ++ z from by
                rw [List.append_assoc]; rfl] at h4
              rw [getLast?_append_ne_nil _ _ hz0] at h4
              exact h4
          rw [heq] at hm
          have hih := ih z hz hfalse hzend
          have hnone : matchAt (pre ++ '\n' :: (z ++ (newConfigLine did ++ ['\n']))) = none := by
            refine matchAt_none_transfer pre z _ hnp ?_ ?_ hm
            · intro c0 hc0
              exact head?_dropWS_append_of_some _ _ c0 hc0
            · intro h0
              rw [head?_dropWS_append_of_none _ _ h0]
              rw [head?_dropWS_newConfigLine]
              simp
          rw [heq]
          rw [show (pre ++ '\n' :: z) ++ (newConfigLine did ++ ['\n']) =
            pre ++ '\n' :: (z ++ (newConfigLine did ++ ['\n'])) from by
              rw [List.append_assoc]; rfl]
          constructor
          · rw [subScan_step _ _ (by simp)]
            simp only [hnone]
            rw [copyToNL_split _ _ hnp, hih.1, List.append_assoc]
            rfl
          · rw [hasMatch_step _ (by simp)]
            simp only [hnone]
            rw [copyToNL_split _ _ hnp]
            exact hih.2

theorem updateContentLit_eq (did content : Str) :
    updateContentLit did content =
      if hasMatch content = true then subScan (newConfigLine did) content
      else (if content ≠ [] ∧ content.getLast? ≠ some '\n' then content ++ ['\n']
        else content) ++ newConfigLine did ++ ['\n'] := rfl

/-- The literal-replacement update is idempotent for every initial content
and every id that contains no newline and at least one non-whitespace
character. -/
theorem updateContentLit_idem (did content : Str) (h1 : '\n' ∉ did)
    (h2 : ∃ c ∈ did, isPySpace c = false) :
    updateContentLit did (updateContentLit did content) =
      updateContentLit did content := by
  have hinner := updateContentLit_eq did content
  by_cases hm : hasMatch content = true
  · rw [if_pos hm] at hinner
    rw [hinner, updateContentLit_eq]
    have hS : hasMatch (subScan (newConfigLine did) content) = true :=
      hasMatch_subScan_true did h1 h2 content.length content (le_refl _) hm
    rw [if_pos hS]
    exact subScan_newLine_fixpoint did h1 h2 _ _ (le_refl _)
  · rw [if_neg hm] at hinner
    simp only [Bool.not_eq_true] at hm
    have hends : (if content ≠ [] ∧ content.getLast? ≠ some '\n' then content ++ ['\n']
        else content) = [] ∨
        (if content ≠ [] ∧ content.getLast? ≠ some '\n' then content ++ ['\n']
        else content).getLast? = some '\n' := by
      by_cases hcond : content ≠ [] ∧ content.getLast? ≠ some '\n'
      · right
        rw [if_pos hcond]
        exact getLast?_append_singleton _ _
      · rw [if_neg hcond]
        push_neg at hcond
        by_cases hnil : content = []
        · exact Or.inl hnil
        · exact Or.inr (hcond hnil)
    have hm2 : hasMatch (if content ≠ [] ∧ content.getLast? ≠ some '\n' then content ++ ['\n']
        else content) = false := by
      by_cases hcond : content ≠ [] ∧ content.getLast? ≠ some '\n'
      · rw [if_pos hcond]
        exact hasMatch_concat_nl content.length content (le_refl _) hm
      · rw [if_neg hcond]
        exact hm
    have hfix := append_tail_fixpoint did h1 h2 _ _ (le_refl _) hm2 hends
    rw [hinner, updateContentLit_eq]
    rw [show (if content ≠ [] ∧ content.getLast? ≠ some '\n' then content ++ ['\n']
        else content) ++ newConfigLine did ++ ['\n'] =
      (if content ≠ [] ∧ content.getLast? ≠ some '\n' then content ++ ['\n']
        else content) ++ (newConfigLine did ++ ['\n']) from List.append_assoc _ _ _]
    rw [if_pos hfix.2]
    exact hfix.1

/-! ### Reducing the template update to the literal update -/

theorem expandT_litToks (r : Str) (m : Str) : expandT (litToks r) m = r := by
  induction r with
  | nil => rfl
  | cons c cs ih =>
    show c :: expandT (litToks cs) m = c :: cs
    rw [ih]

theorem subScanTF_litToks (r : Str) :
    ∀ (n : Nat) (cs : Str), subScanTF (litToks r) n cs = subScanF r n cs := by
  intro n
  induction n with
  | zero => intro cs; cases cs <;> rfl
  | succ n ih =>
    intro cs
    cases cs with
    | nil => rfl
    | cons c rest =>
      show subScanTF (litToks r) (n + 1) (c :: rest) = subScanF r (n + 1) (c :: rest)
      simp only [subScanTF, subScanF]
      cases hm : matchAt (c :: rest) with
      | none => simp only [hm]; rw [ih]
      | some t =>
        simp only [hm, expandT_litToks]
        cases t with
        | nil => rfl
        | cons c2 t2 =>
          show r ++ c2 :: subScanTF (litToks r) n t2 = r ++ c2 :: subScanF r n t2
          rw [ih]

theorem subScanT_litToks (r cs : Str) : subScanT (litToks r) cs = subScan r cs :=
  subScanTF_litToks r cs.length cs

theorem parseTemplateF_no_backslash :
    ∀ (n : Nat) (s : Str), s.length ≤ n → '\\' ∉ s →
      parseTemplateF n s = Except.ok (litToks s) := by
  intro n
  induction n with
  | zero =>
    intro s hl hb
    cases s with
    | nil => rfl
    | cons c rest => simp at hl
  | succ n ih =>
    intro s hl hb
    cases s with
    | nil => rfl
    | cons c rest =>
      have hc : ¬ (c = '\\') := fun h => hb (h ▸ List.mem_cons_self _ _)
      show parseTemplateF (n + 1) (c :: rest) = _
      simp only [parseTemplateF]
      rw [if_neg hc]
      rw [ih rest (by simp at hl; omega) (fun h => hb (List.mem_cons_of_mem _ h))]
      rfl

theorem parse_template_no_backslash (s : Str) (hb : '\\' ∉ s) :
    parse_template s = Except.ok (litToks s) :=
  parseTemplateF_no_backslash s.length s (le_refl _) hb

theorem newConfigLine_no_backslash (did : Str) (hbs : '\\' ∉ did) :
    '\\' ∉ newConfigLine did := by
  rw [newConfigLine]
  intro hm
  rcases List.mem_append.mp hm with h | h
  · exact absurd h (by decide)
  · exact hbs h

/-- With a backslash-free id the template is all-literal and the update never
raises: it returns the literal-replacement update of the content. -/
theorem update_sunshine_config_no_backslash (did content : Str) (hbs : '\\' ∉ did) :
    update_sunshine_config did content = Except.ok (updateContentLit did content) := by
  unfold update_sunshine_config updateContentLit
  by_cases hm : hasMatch content = true
  · rw [if_pos hm, if_pos hm,
      parse_template_no_backslash _ (newConfigLine_no_backslash did hbs)]
    show Except.ok (subScanT (litToks (newConfigLine did)) content) = _
    rw [subScanT_litToks]
  · rw [if_neg hm, if_neg hm]

/-- Template processing on the substitution path: an id of two backslashes is
written as one backslash. -/
theorem update_template_collapses_backslashes :
    update_sunshine_config "\\\\".toList "output_name = old\n".toList =
      Except.ok "output_name = \\\n".toList := by decide

/-- Template processing: a literal `\n` in the id injects a real newline, so
the written text spans two `output_name` lines. -/
theorem update_template_injects_newline :
    update_sunshine_config "0\\noutput_name = 1".toList "output_name = old\n".toList =
      Except.ok "output_name = 0\noutput_name = 1\n".toList := by decide

/-- Template processing: a group reference in the id raises `re.error` (the
pattern has no capturing groups). -/
theorem update_template_group_reference_raises :
    update_sunshine_config "\\1".toList "output_name = old\n".toList =
      Except.error (PyExc.otherExc "invalid group reference".toList) := by decide

/-- Template processing: `\g<0>` expands to the whole matched text, nesting
the line one level deeper on each call. -/
theorem update_template_group0_expands_match :
    update_sunshine_config "\\g<0>".toList "output_name = old\n".toList =
      Except.ok "output_name = output_name = old\n".toList := by decide

/-- C5 (amended): `update_sunshine_config` is idempotent for every initial
content and every id that contains no backslash, no newline, and at least one
non-whitespace character: the first call succeeds and a second call with the
same id returns its result unchanged.  (As stated over every id the claim
fails twice over: for a whitespace-only id the pattern's trailing `\s*`
swallows the final newline on the second call — see the counterexample — and
for an id with backslashes `re.sub`'s template processing rewrites the
replacement, e.g. collapsing `\\` to `\`.) -/
theorem update_sunshine_config_idem (did content : Str) (hbs : '\\' ∉ did)
    (h1 : '\n' ∉ did) (h2 : ∃ c ∈ did, isPySpace c = false) :
    ∃ out, update_sunshine_config did content = Except.ok out ∧
      update_sunshine_config did out = Except.ok out := by
  refine ⟨updateContentLit did content, update_sunshine_config_no_backslash _ _ hbs, ?_⟩
  rw [update_sunshine_config_no_backslash _ _ hbs, updateContentLit_idem did content h1 h2]

/-- Counterexample to C5 as stated: with the empty id and an empty (or
missing) file, the first call writes `output_name = \n` and the second call's
substitution swallows the trailing newline, so the two results differ. -/
theorem update_sunshine_config_idem_cex :
    ¬ ∃ out, update_sunshine_config ([] : Str) [] = Except.ok out ∧
      update_sunshine_config ([] : Str) out = Except.ok out := by
  rintro ⟨out, h1, h2⟩
  rw [show update_sunshine_config ([] : Str) [] =
    Except.ok "output_name = \n".toList from by decide] at h1
  cases h1
  exact absurd h2 (by decide)

/-- Witness for C5 (amended) at a concrete id and content. -/
theorem update_sunshine_config_idem_example :
    ∃ out, update_sunshine_config "3".toList "# cfg\nkey = v".toList = Except.ok out ∧
      update_sunshine_config "3".toList out = Except.ok out :=
  update_sunshine_config_idem "3".toList "# cfg\nkey = v".toList (by decide) (by decide)
    ⟨'3', by decide, by decide⟩

/-! ### Line structure: `splitNL` and its inverse -/

/-- Rejoin lines with newlines (left inverse of `splitNL`). -/
def unsplit : List Str → Str
  | [] => []
  | [l] => l
  | l :: l2 :: ls => l ++ '\n' :: unsplit (l2 :: ls)

theorem splitNL_ne_nil : ∀ cs : Str, splitNL cs ≠ [] := by
  intro cs
  cases cs with
  | nil => simp [splitNL]
  | cons c rest =>
    by_cases h : c = '\n'
    · simp [splitNL, h]
    · simp only [splitNL, if_neg h]
      cases hs : splitNL rest <;> simp

theorem splitNL_no_nl : ∀ (cs : Str) (l : Str), l ∈ splitNL cs → '\n' ∉ l := by
  intro cs
  induction cs with
  | nil =>
    intro l hl
    simp only [splitNL, List.mem_singleton] at hl
    subst hl
    simp
  | cons c rest ih =>
    intro l hl
    by_cases h : c = '\n'
    · subst h
      simp only [splitNL, if_pos rfl] at hl
      rcases List.mem_cons.mp hl with rfl | hmem
      · simp
      · exact ih l hmem
    · simp only [splitNL, if_neg h] at hl
      cases hs : splitNL rest with
      | nil => exact absurd hs (splitNL_ne_nil rest)
      | cons l0 ls =>
        rw [hs] at hl
        rcases List.mem_cons.mp hl with rfl | hmem
        · intro hm
          rcases List.mem_cons.mp hm with he | hm2
          · exact h he.symm
          · exact ih l0 (hs ▸ List.mem_cons_self _ _) hm2
        · exact ih l (hs ▸ List.mem_cons_of_mem _ hmem)

theorem unsplit_splitNL : ∀ cs : Str, unsplit (splitNL cs) = cs := by
  intro cs
  induction cs with
  | nil => rfl
  | cons c rest ih =>
    by_cases h : c = '\n'
    · subst h
      show unsplit (splitNL ('\n' :: rest)) = '\n' :: rest
      simp only [splitNL, if_pos rfl]
      cases hs : splitNL rest with
      | nil => exact absurd hs (splitNL_ne_nil rest)
      | cons l0 ls =>
        show ([] : Str) ++ '\n' :: unsplit (l0 :: ls) = '\n' :: rest
        rw [List.nil_append, ← hs, ih]
    · simp only [splitNL, if_neg h]
      cases hs : splitNL rest with
      | nil => exact absurd hs (splitNL_ne_nil rest)
      | cons l0 ls =>
        cases ls with
        | nil =>
          show c :: l0 = c :: rest
          have : unsplit (splitNL rest) = rest := ih
          rw [hs] at this
          show c :: l0 = c :: rest
          rw [show unsplit [l0] = l0 from rfl] at this
          rw [this]
        | cons l1 ls2 =>
          show (c :: l0) ++ '\n' :: unsplit (l1 :: ls2) = c :: rest
          have : unsplit (splitNL rest) = rest := ih
          rw [hs] at this
          rw [show unsplit (l0 :: l1 :: ls2) = l0 ++ '\n' :: unsplit (l1 :: ls2) from rfl] at this
          rw [List.cons_append, this]

theorem splitNL_append_cons : ∀ (a b : Str), splitNL (a ++ '\n' :: b) = splitNL a ++ splitNL b := by
  intro a
  induction a with
  | nil =>
    intro b
    show splitNL ('\n' :: b) = splitNL [] ++ splitNL b
    simp [splitNL]
  | cons c a' ih =>
    intro b
    by_cases h : c = '\n'
    · subst h
      show splitNL ('\n' :: (a' ++ '\n' :: b)) = splitNL ('\n' :: a') ++ splitNL b
      simp only [splitNL, if_pos rfl]
      rw [ih b]
      rfl
    · show splitNL (c :: (a' ++ '\n' :: b)) = splitNL (c :: a') ++ splitNL b
      simp only [splitNL, if_neg h]
      rw [ih b]
      cases hs : splitNL a' with
      | nil => exact absurd hs (splitNL_ne_nil a')
      | cons l0 ls => simp

theorem splitNL_single (l : Str) (h : '\n' ∉ l) : splitNL l = [l] := by
  induction l with
  | nil => rfl
  | cons c rest ih =>
    have hc : c ≠ '\n' := fun he => h (he ▸ List.mem_cons_self _ _)
    have hr : '\n' ∉ rest := fun hm => h (List.mem_cons_of_mem _ hm)
    simp only [splitNL, if_neg hc, ih hr]

theorem splitNL_unsplit : ∀ ls : List Str, ls ≠ [] → (∀ l ∈ ls, '\n' ∉ l) →
    splitNL (unsplit ls) = ls := by
  intro ls
  induction ls with
  | nil => intro h _; cases h rfl
  | cons l ls' ih =>
    intro _ hnl
    cases ls' with
    | nil => exact splitNL_single l (hnl l (List.mem_cons_self _ _))
    | cons l2 ls'' =>
      show splitNL (l ++ '\n' :: unsplit (l2 :: ls'')) = l :: l2 :: ls''
      rw [splitNL_append_cons, splitNL_single l (hnl l (List.mem_cons_self _ _))]
      rw [ih (by simp) (fun x hx => hnl x (List.mem_cons_of_mem _ hx))]
      rfl

theorem keyLineB_nil : keyLineB [] = false := by decide

theorem lineMatchesB_nil : lineMatchesB [] = false := by decide

theorem lineMatchesB_newConfigLine (did : Str) :
    lineMatchesB (newConfigLine did) = true := by
  unfold lineMatchesB
  rw [newConfigLine_eq]
  unfold matchAt
  rw [if_pos (List.isPrefixOf_iff_prefix.mpr (List.prefix_append _ _))]
  rw [List.drop_left]
  have hws : dropWS (' ' :: '=' :: ' ' :: did) = '=' :: ' ' :: did := by
    unfold dropWS
    rw [List.dropWhile_cons_of_pos (by decide), List.dropWhile_cons_of_neg (by decide)]
  simp [hws]

theorem lineMatchesB_nonkey (l : Str) (hk : keyLineB l = false) :
    lineMatchesB l = false := by
  unfold lineMatchesB matchAt
  rw [if_neg (by simp [keyLineB] at hk; simp [hk])]
  rfl

theorem lineMatchesB_safe_key (l : Str) (hnl : '\n' ∉ l) (hk : keyLineB l = true)
    (hs : safeLineB l = true) : lineMatchesB l = true := by
  unfold lineMatchesB
  have := matchAt_safe_line l [] hnl hk hs (Or.inl rfl)
  rw [List.append_nil] at this
  rw [this]
  rfl

theorem keyLineB_newConfigLine (did : Str) : keyLineB (newConfigLine did) = true := by
  unfold keyLineB
  rw [newConfigLine_eq]
  exact List.isPrefixOf_iff_prefix.mpr (List.prefix_append _ _)

theorem keyLine_ne_nil (l : Str) (hk : keyLineB l = true) : l ≠ [] := by
  intro he
  rw [he] at hk
  exact absurd hk (by decide)

/-- The substitution acts on a safe line structure by replacing each
`output_name`-initial line with the replacement line, preserving every other
line. -/
theorem subScan_unsplit (r : Str) :
    ∀ ls : List Str, (∀ l ∈ ls, '\n' ∉ l) →
      (∀ l ∈ ls, keyLineB l = true → safeLineB l = true) →
      subScan r (unsplit ls) =
        unsplit (ls.map (fun l => if keyLineB l = true then r else l)) := by
  intro ls
  induction ls with
  | nil => intro _ _; rfl
  | cons l ls' ih =>
    intro hnl hsafe
    have hl := hnl l (List.mem_cons_self _ _)
    cases ls' with
    | nil =>
      show subScan r l = unsplit [if keyLineB l = true then r else l]
      by_cases hk : keyLineB l = true
      · have hm : matchAt l = some [] := by
          have := matchAt_safe_line l [] hl hk (hsafe l (List.mem_cons_self _ _) hk) (Or.inl rfl)
          rwa [List.append_nil] at this
        rw [subScan_step r l (keyLine_ne_nil l hk)]
        simp only [hm, if_pos hk]
        simp [unsplit]
      · simp only [Bool.not_eq_true] at hk
        by_cases hlnil : l = []
        · subst hlnil
          rfl
        · have hm : matchAt l = none := by
            have := matchAt_nonkey_line l [] hl hk (Or.inl rfl)
            rwa [List.append_nil] at this
          rw [subScan_step r l hlnil]
          simp only [hm]
          rw [copyToNL_no_nl _ hl]
          show l ++ subScan r [] = unsplit [if keyLineB l = true then r else l]
          rw [show subScan r [] = [] from rfl, List.append_nil]
          rw [if_neg (by simp [hk])]
          rfl
    | cons l2 ls'' =>
      have hrest_nl : ∀ x ∈ l2 :: ls'', '\n' ∉ x :=
        fun x hx => hnl x (List.mem_cons_of_mem _ hx)
      have hrest_safe : ∀ x ∈ l2 :: ls'', keyLineB x = true → safeLineB x = true :=
        fun x hx => hsafe x (List.mem_cons_of_mem _ hx)
      have hih := ih hrest_nl hrest_safe
      show subScan r (l ++ '\n' :: unsplit (l2 :: ls'')) =
        (if keyLineB l = true then r else l) ++ '\n' ::
          unsplit ((l2 :: ls'').map (fun x => if keyLineB x = true then r else x))
      rw [← hih]
      by_cases hk : keyLineB l = true
      · have hm := matchAt_safe_line l ('\n' :: unsplit (l2 :: ls'')) hl hk
          (hsafe l (List.mem_cons_self _ _) hk) (Or.inr ⟨_, rfl⟩)
        rw [subScan_step r _ (by
          intro he
          exact keyLine_ne_nil l hk (List.append_eq_nil.mp he).1)]
        simp only [hm, if_pos hk]
      · simp only [Bool.not_eq_true] at hk
        have hm := matchAt_nonkey_line l ('\n' :: unsplit (l2 :: ls'')) hl hk (Or.inr ⟨_, rfl⟩)
        rw [subScan_step r _ (by simp)]
        simp only [hm]
        rw [copyToNL_split _ _ hl]
        rw [if_neg (by simp [hk]), List.append_assoc]
        rfl

/-- Over a safe line structure, a match exists exactly when some line begins
with `output_name`. -/
theorem hasMatch_unsplit :
    ∀ ls : List Str, (∀ l ∈ ls, '\n' ∉ l) →
      (∀ l ∈ ls, keyLineB l = true → safeLineB l = true) →
      hasMatch (unsplit ls) = ls.any keyLineB := by
  intro ls
  induction ls with
  | nil => intro _ _; rfl
  | cons l ls' ih =>
    intro hnl hsafe
    have hl := hnl l (List.mem_cons_self _ _)
    cases ls' with
    | nil =>
      show hasMatch l = [l].any keyLineB
      by_cases hk : keyLineB l = true
      · have hm : matchAt l = some [] := by
          have := matchAt_safe_line l [] hl hk (hsafe l (List.mem_cons_self _ _) hk) (Or.inl rfl)
          rwa [List.append_nil] at this
        rw [hasMatch_step l (keyLine_ne_nil l hk)]
        simp [hm, hk]
      · simp only [Bool.not_eq_true] at hk
        by_cases hlnil : l = []
        · subst hlnil
          simp [keyLineB_nil]
          rfl
        · have hm : matchAt l = none := by
            have := matchAt_nonkey_line l [] hl hk (Or.inl rfl)
            rwa [List.append_nil] at this
          rw [hasMatch_step l hlnil]
          simp only [hm]
          rw [copyToNL_no_nl _ hl]
          simp [hk]
          rfl
    | cons l2 ls'' =>
      have hrest_nl : ∀ x ∈ l2 :: ls'', '\n' ∉ x :=
        fun x hx => hnl x (List.mem_cons_of_mem _ hx)
      have hrest_safe : ∀ x ∈ l2 :: ls'', keyLineB x = true → safeLineB x = true :=
        fun x hx => hsafe x (List.mem_cons_of_mem _ hx)
      have hih := ih hrest_nl hrest_safe
      show hasMatch (l ++ '\n' :: unsplit (l2 :: ls'')) = (l :: l2 :: ls'').any keyLineB
      by_cases hk : keyLineB l = true
      · have hm := matchAt_safe_line l ('\n' :: unsplit (l2 :: ls'')) hl hk
          (hsafe l (List.mem_cons_self _ _) hk) (Or.inr ⟨_, rfl⟩)
        rw [hasMatch_step _ (by
          intro he
          exact keyLine_ne_nil l hk (List.append_eq_nil.mp he).1)]
        simp [hm, hk]
      · simp only [Bool.not_eq_true] at hk
        have hm := matchAt_nonkey_line l ('\n' :: unsplit (l2 :: ls'')) hl hk (Or.inr ⟨_, rfl⟩)
        rw [hasMatch_step _ (by simp)]
        simp only [hm]
        rw [copyToNL_split _ _ hl]
        rw [List.any_cons, hk, Bool.false_or]
        exact hih

theorem countP_map_replace (r : Str) (hr : lineMatchesB r = true) :
    ∀ ls : List Str,
      ((ls.map (fun l => if keyLineB l = true then r else l)).countP lineMatchesB) =
        ls.countP keyLineB := by
  intro ls
  induction ls with
  | nil => rfl
  | cons l ls' ih =>
    rw [List.map_cons, List.countP_cons, List.countP_cons, ih]
    congr 1
    by_cases hk : keyLineB l = true
    · rw [if_pos hk, hr, hk]
    · simp only [Bool.not_eq_true] at hk
      rw [show (if keyLineB l = true then r else l) = l from if_neg (by simp [hk]),
        lineMatchesB_nonkey l hk, hk]

theorem filter_sublist_map_replace (r : Str) :
    ∀ ls : List Str, (∀ l ∈ ls, '\n' ∉ l) →
      (∀ l ∈ ls, keyLineB l = true → safeLineB l = true) →
      (ls.filter (fun l => !lineMatchesB l)).Sublist
        (ls.map (fun l => if keyLineB l = true then r else l)) := by
  intro ls
  induction ls with
  | nil => intro _ _; simp
  | cons l ls' ih =>
    intro hnl hsafe
    have hih := ih (fun x hx => hnl x (List.mem_cons_of_mem _ hx))
      (fun x hx => hsafe x (List.mem_cons_of_mem _ hx))
    rw [List.map_cons]
    by_cases hk : keyLineB l = true
    · have hml : lineMatchesB l = true :=
        lineMatchesB_safe_key l (hnl l (List.mem_cons_self _ _)) hk
          (hsafe l (List.mem_cons_self _ _) hk)
      rw [if_pos hk, List.filter_cons_of_neg (by simp [hml])]
      exact List.Sublist.cons _ hih
    · simp only [Bool.not_eq_true] at hk
      have hml : lineMatchesB l = false := lineMatchesB_nonkey l hk
      rw [if_neg (by simp [hk]), List.filter_cons_of_pos (by simp [hml])]
      exact List.Sublist.cons₂ _ hih

theorem exists_concat_of_getLast? {α : Type} :
    ∀ (l : List α) (a : α), l.getLast? = some a → ∃ y, l = y ++ [a] := by
  intro l
  induction l with
  | nil => intro a h; cases h
  | cons x xs ih =>
    intro a h
    cases hx : xs with
    | nil =>
      subst hx
      simp only [List.getLast?_singleton] at h
      injection h with h
      exact ⟨[], by subst h; rfl⟩
    | cons y ys =>
      subst hx
      rw [List.getLast?_cons_cons] at h
      obtain ⟨z, hz⟩ := ih a h
      exact ⟨x :: z, by rw [hz]; rfl⟩

/-- The line-level invariant of the literal-replacement update: at most one
matching line afterwards, non-matching lines preserved in order. -/
theorem updateContentLit_line_invariant (did content : Str)
    (hid : '\n' ∉ did)
    (hcount : (splitNL content).countP keyLineB ≤ 1)
    (hsafe : ∀ l ∈ splitNL content, keyLineB l = true → safeLineB l = true) :
    (splitNL (updateContentLit did content)).countP lineMatchesB ≤ 1 ∧
    ((splitNL content).filter (fun l => !lineMatchesB l)).Sublist
      (splitNL (updateContentLit did content)) := by
  have hnl := splitNL_no_nl content
  have hrnl : '\n' ∉ newConfigLine did := by
    rw [newConfigLine_eq]
    intro hm
    rcases List.mem_append.mp hm with h | h
    · exact key_no_nl h
    · rcases List.mem_cons.mp h with he | h
      · exact absurd he (by decide)
      · rcases List.mem_cons.mp h with he | h
        · exact absurd he (by decide)
        · rcases List.mem_cons.mp h with he | h
          · exact absurd he (by decide)
          · exact hid h
  by_cases hany : (splitNL content).any keyLineB = true
  · have hmatch : hasMatch content = true := by
      conv_lhs => rw [← unsplit_splitNL content]
      rw [hasMatch_unsplit _ hnl hsafe]
      exact hany
    rw [updateContentLit_eq, if_pos hmatch]
    have hsub : subScan (newConfigLine did) content =
        unsplit ((splitNL content).map
          (fun l => if keyLineB l = true then newConfigLine did else l)) := by
      conv_lhs => rw [← unsplit_splitNL content]
      exact subScan_unsplit _ _ hnl hsafe
    rw [hsub]
    rw [splitNL_unsplit _ (by simp [splitNL_ne_nil content]) (by
      intro x hx
      obtain ⟨l, hl, hfx⟩ := List.mem_map.mp hx
      by_cases hk : keyLineB l = true
      · rw [← hfx, if_pos hk]
        exact hrnl
      · rw [← hfx, if_neg hk]
        exact hnl l hl)]
    constructor
    · rw [countP_map_replace _ (lineMatchesB_newConfigLine did) _]
      exact hcount
    · exact filter_sublist_map_replace _ _ hnl hsafe
  · have hallnonkey : ∀ l ∈ splitNL content, keyLineB l = false := by
      intro l hl
      cases hb : keyLineB l
      · rfl
      · exact absurd (List.any_eq_true.mpr ⟨l, hl, hb⟩) hany
    have hcount0 : ∀ ms : List Str, (∀ l ∈ ms, keyLineB l = false) →
        ms.countP lineMatchesB = 0 := by
      intro ms hms
      rw [List.countP_eq_zero]
      intro l hl
      rw [lineMatchesB_nonkey l (hms l hl)]
      simp
    have hmatch : hasMatch content = false := by
      have h0 : hasMatch content = (splitNL content).any keyLineB := by
        conv_lhs => rw [← unsplit_splitNL content]
        exact hasMatch_unsplit _ hnl hsafe
      rw [h0]
      cases hb : (splitNL content).any keyLineB
      · rfl
      · exact absurd hb hany
    rw [updateContentLit_eq, if_neg (by rw [hmatch]; simp)]
    by_cases hnil : content = []
    · subst hnil
      rw [if_neg (by simp)]
      have hsplit : splitNL (([] : Str) ++ newConfigLine did ++ ['\n']) =
          [newConfigLine did, []] := by
        rw [List.nil_append]
        rw [show newConfigLine did ++ ['\n'] = newConfigLine did ++ '\n' :: [] from rfl]
        rw [splitNL_append_cons, splitNL_single _ hrnl]
        rfl
      rw [hsplit]
      constructor
      · simp [List.countP_cons, lineMatchesB_newConfigLine did, lineMatchesB_nil]
      · show (([[]] : List Str).filter (fun l => !lineMatchesB l)).Sublist
          [newConfigLine did, []]
        rw [show ([[]] : List Str).filter (fun l => !lineMatchesB l) = [[]] from by
          simp [lineMatchesB_nil]]
        exact List.Sublist.cons _ (List.Sublist.refl _)
    · by_cases hlast : content.getLast? = some '\n'
      · rw [if_neg (by
          intro hcond
          exact hcond.2 hlast)]
        obtain ⟨y, hy⟩ := exists_concat_of_getLast? content '\n' hlast
        have hres : splitNL (content ++ newConfigLine did ++ ['\n']) =
            splitNL y ++ [newConfigLine did, []] := by
          rw [hy]
          rw [show (y ++ ['\n']) ++ newConfigLine did ++ ['\n'] =
            y ++ '\n' :: (newConfigLine did ++ '\n' :: []) from by
              simp [List.append_assoc]]
          rw [splitNL_append_cons, splitNL_append_cons, splitNL_single _ hrnl]
          rfl
        have hcontentlines : splitNL content = splitNL y ++ [[]] := by
          rw [hy, show y ++ ['\n'] = y ++ '\n' :: ([] : Str) from rfl, splitNL_append_cons]
          rfl
        rw [hres]
        constructor
        · rw [List.countP_append]
          rw [hcount0 (splitNL y) (fun l hl => hallnonkey l
            (by rw [hcontentlines]; exact List.mem_append_left _ hl))]
          simp [List.countP_cons, lineMatchesB_newConfigLine did, lineMatchesB_nil]
        · rw [hcontentlines, List.filter_append]
          refine List.Sublist.append (List.filter_sublist _) ?_
          rw [show ([[]] : List Str).filter (fun l => !lineMatchesB l) = [[]] from by
            simp [lineMatchesB_nil]]
          exact List.Sublist.cons _ (List.Sublist.refl _)
      · rw [if_pos ⟨hnil, hlast⟩]
        have hres : splitNL ((content ++ ['\n']) ++ newConfigLine did ++ ['\n']) =
            splitNL content ++ [newConfigLine did, []] := by
          rw [show (content ++ ['\n']) ++ newConfigLine did ++ ['\n'] =
            content ++ '\n' :: (newConfigLine did ++ '\n' :: []) from by
              simp [List.append_assoc]]
          rw [splitNL_append_cons, splitNL_append_cons, splitNL_single _ hrnl]
          rfl
        rw [hres]
        constructor
        · rw [List.countP_append]
          rw [hcount0 (splitNL content) hallnonkey]
          simp [List.countP_cons, lineMatchesB_newConfigLine did, lineMatchesB_nil]
        · exact (List.filter_sublist _).trans (List.sublist_append_left _ _)

/-- C2 (amended): for every id without a backslash and without a newline, and
every initial content in which at most one line begins with `output_name` and
every such line carries its `=` and a non-whitespace value within the line,
the write succeeds, leaves at most one `output_name`-matching line, and every
non-matching line of the original survives in order (as a sublist of the
result's lines).  As stated over all contents and ids the claim fails: a file
with two matching lines keeps two (see the counterexample), and an id with
backslashes is rewritten by `re.sub`'s template processing (e.g. a literal
`\n` in the id injects a real newline, splitting the written line in two). -/
theorem update_sunshine_config_line_invariant (did content : Str)
    (hbs : '\\' ∉ did) (hid : '\n' ∉ did)
    (hcount : (splitNL content).countP keyLineB ≤ 1)
    (hsafe : ∀ l ∈ splitNL content, keyLineB l = true → safeLineB l = true) :
    ∃ out, update_sunshine_config did content = Except.ok out ∧
      (splitNL out).countP lineMatchesB ≤ 1 ∧
      ((splitNL content).filter (fun l => !lineMatchesB l)).Sublist (splitNL out) := by
  refine ⟨updateContentLit did content, update_sunshine_config_no_backslash _ _ hbs, ?_⟩
  exact updateContentLit_line_invariant did content hid hcount hsafe

/-- Counterexample to C2 as stated: a file with two `output_name` lines keeps
two such lines after the write, because the substitution replaces every
occurrence. -/
theorem update_sunshine_config_two_lines_cex :
    ¬ ∃ out, update_sunshine_config "5".toList
        "output_name = 1\noutput_name = 2\n".toList = Except.ok out ∧
      (splitNL out).countP lineMatchesB ≤ 1 := by
  rintro ⟨out, h1, h2⟩
  rw [show update_sunshine_config "5".toList
      "output_name = 1\noutput_name = 2\n".toList =
    Except.ok "output_name = 5\noutput_name = 5\n".toList from by decide] at h1
  cases h1
  exact absurd h2 (by decide)

/-- Witness for C2 (amended) at a concrete id and three-line content with one
`output_name` line. -/
theorem update_sunshine_config_line_invariant_example :
    ∃ out, update_sunshine_config "7".toList
        "# c\noutput_name = 5\nz = 1\n".toList = Except.ok out ∧
      (splitNL out).countP lineMatchesB ≤ 1 ∧
      ((splitNL ("# c\noutput_name = 5\nz = 1\n".toList : Str)).filter
        (fun l => !lineMatchesB l)).Sublist (splitNL out) :=
  update_sunshine_config_line_invariant "7".toList
    "# c\noutput_name = 5\nz = 1\n".toList (by decide) (by decide) (by decide) (by decide)

end Sunshine
